import Mathlib

/-!
Verification development for the octavus agent-sdk streaming core.

The definitions below are a shallow embedding of the repository's
continuation state machine and SSE framing code:

* `executeStream` in the streaming module (src/unnamed/part_001, lines 56-242),
* `executeWorkerStream` in src/packages/server-sdk/src/workers.ts (lines 61-273),
* `toSSEStream` and the session facade's resource dispatch in
  src/packages/server-sdk/src/session.ts.

Modelling conventions:

* Byte chunks are modelled at the text level (`List Char`): the source decodes
  each chunk with `TextDecoder(..., {stream: true})`, which reassembles UTF-8
  across chunk boundaries, so the text of the concatenation is the
  concatenation of the chunk texts.
* `fetch`, `parseApiError`, `JSON.parse`/`JSON.stringify` and
  `safeParseStreamEvent` are external collaborators (platform builtins or code
  outside the streaming module); they are modelled as oracles: a per-round-trip
  `FetchOutcome` describing what the transport produced, and a
  `parse : List Char -> Option StreamEvent` function standing for
  `JSON.parse` + `safeParseStreamEvent` (returning `none` both when `JSON.parse`
  throws and when validation fails - the source skips the record in both cases).
* The JavaScript `AbortSignal` is an externally-owned flag polled at suspension
  points; it is modelled as a function `Nat -> Bool` consulted once per poll,
  with a poll counter threaded through the machine.
* JavaScript truthiness of optional strings (`if (event.executionId)`,
  `if (tr.error)`, `if (!executionId)`) is modelled by `truthy`: an absent
  value and the empty string are falsy.
-/

namespace Octavus

/-- Opaque JSON values as they appear in event payloads.  The structure of the
values never matters to the streaming engine, so a flat universe (including
the JavaScript `undefined`) suffices. -/
inductive JsonValue
  | undef
  | jnull
  | jbool (b : Bool)
  | jnum (n : Int)
  | jstr (s : String)
deriving DecidableEq

/-- PendingToolCall from the core package:
`{toolCallId, toolName, args, outputVariable?, blockIndex?, thread?, workerId?}`. -/
structure PendingToolCall where
  toolCallId : String
  toolName : String
  args : JsonValue
  outputVariable : Option String := none
  blockIndex : Option Int := none
  thread : Option String := none
  workerId : Option String := none
deriving DecidableEq

/-- ToolResult from the core package: the engine builds these with either a
`result` (success) or an `error` (caught failure). -/
structure ToolResult where
  toolCallId : String
  toolName : String
  result : Option JsonValue := none
  error : Option String := none
  outputVariable : Option String := none
  blockIndex : Option Int := none
  thread : Option String := none
  workerId : Option String := none
deriving DecidableEq

/-- The stream event union, restricted to the constructors the streaming engine
inspects; every other member of the union is forwarded verbatim and is
represented by `otherEvent`.  `internalError` stands for the events produced by
`createInternalErrorEvent` and `apiError` for `createApiErrorEvent` (modelled
from the spec: the helper sources are outside src/, the spec calls them the
internal-error and api-error events carrying a message, resp. status and
message). -/
inductive StreamEvent
  | start (executionId : Option String)
  | finish (finishReason : String) (executionId : Option String)
  | toolRequest (toolCalls : List PendingToolCall)
  | clientToolRequest (executionId : String) (toolCalls : List PendingToolCall)
      (serverToolResults : Option (List ToolResult))
  | toolOutputAvailable (toolCallId : String) (output : JsonValue)
  | toolOutputError (toolCallId : String) (error : String)
  | resourceUpdate (name : String) (value : JsonValue)
  | internalError (message : String)
  | apiError (status : Nat) (message : String)
  | otherEvent (tag : String) (payload : JsonValue)
deriving DecidableEq

/-- JavaScript truthiness of an optional string: `undefined` and `""` are
falsy, every other string is truthy. -/
def truthy : Option String → Bool
  | none => false
  | some s => s != ""

/-- Outcome of awaiting a caller-supplied tool handler: it resolves with a
value, rejects with an `Error` (whose message is kept), or rejects with a
non-`Error` value. -/
inductive HandlerOutcome
  | ok (v : JsonValue)
  | errMsg (m : String)
  | errOther
deriving DecidableEq

/-- ToolHandlers: a read-only mapping from tool name to an async handler. -/
def ToolHandlers := String → Option (JsonValue → HandlerOutcome)

/-! ## SSE frame decoding (part_001 lines 134-136)

`buffer += decoder.decode(value, {stream: true}); const lines = buffer.split('\n');
buffer = lines.pop() ?? '';` - `splitNl` returns the pair (complete lines,
held-back trailing fragment), i.e. `split('\n')` with the last element
separated out. -/

def splitNl : List Char → List (List Char) × List Char
  | [] => ([], [])
  | c :: cs =>
    if c = '\n' then
      ([] :: (splitNl cs).1, (splitNl cs).2)
    else
      match splitNl cs with
      | ([], f) => ([], c :: f)
      | (l :: ls, f) => ((c :: l) :: ls, f)

theorem splitNl_nil : splitNl [] = ([], []) := rfl

theorem splitNl_no_newline {s : List Char} (h : '\n' ∉ s) : splitNl s = ([], s) := by
  induction s with
  | nil => rfl
  | cons c cs ih =>
    have hc : ¬ c = '\n' := fun hc => h (hc ▸ List.mem_cons_self c cs)
    have hcs : '\n' ∉ cs := fun hm => h (List.mem_cons_of_mem c hm)
    simp [splitNl, hc, ih hcs]

theorem splitNl_snd_no_newline (s : List Char) : '\n' ∉ (splitNl s).2 := by
  induction s with
  | nil => simp [splitNl]
  | cons c cs ih =>
    by_cases hc : c = '\n'
    · simpa [splitNl, hc] using ih
    · simp only [splitNl, hc, if_false]
      cases h : splitNl cs with
      | mk l f =>
        cases l with
        | nil =>
          simp only []
          intro hm
          rcases List.mem_cons.mp hm with h1 | h2
          · exact hc h1.symm
          · exact ih (by rw [h]; exact h2)
        | cons x xs =>
          simpa using (by rw [h] at ih; exact ih)

theorem splitNl_append (a b : List Char) :
    splitNl (a ++ b) =
      ((splitNl a).1 ++ (splitNl ((splitNl a).2 ++ b)).1,
        (splitNl ((splitNl a).2 ++ b)).2) := by
  induction a with
  | nil => simp [splitNl]
  | cons c cs ih =>
    by_cases hc : c = '\n'
    · subst hc
      simp [splitNl, ih]
    · have e : ∀ t : List Char, splitNl (c :: t) =
          (match splitNl t with
           | ([], f) => ([], c :: f)
           | (l :: ls, f) => ((c :: l) :: ls, f)) := by
        intro t; simp [splitNl, hc]
      rw [List.cons_append, e (cs ++ b), ih, e cs]
      cases h : splitNl cs with
      | mk l f =>
        cases l with
        | nil =>
          cases hfb : splitNl (f ++ b) with
          | mk l' f' =>
            cases l' with
            | nil => simp [h, hfb, e]
            | cons x xs => simp [h, hfb, e]
        | cons x xs => simp [h]

/-- The line sequence emitted by the frame-decoding loop: per chunk, append to
the buffer, split on newline, hold back the final fragment, emit the complete
lines; the trailing buffer at end-of-stream is discarded (part_001 lines
127-137). -/
def decodeLines (buffer : List Char) : List (List Char) → List (List Char)
  | [] => []
  | c :: rest =>
    (splitNl (buffer ++ c)).1 ++ decodeLines (splitNl (buffer ++ c)).2 rest

theorem decodeLines_eq_join {buffer : List Char} (hb : '\n' ∉ buffer) :
    ∀ chunks : List (List Char),
      decodeLines buffer chunks = (splitNl (buffer ++ chunks.flatten)).1 := by
  intro chunks
  induction chunks generalizing buffer with
  | nil => simp [decodeLines, splitNl_no_newline hb]
  | cons c rest ih =>
    have hb' : '\n' ∉ (splitNl (buffer ++ c)).2 := splitNl_snd_no_newline _
    calc decodeLines buffer (c :: rest)
        = (splitNl (buffer ++ c)).1 ++ decodeLines (splitNl (buffer ++ c)).2 rest := rfl
      _ = (splitNl (buffer ++ c)).1 ++ (splitNl ((splitNl (buffer ++ c)).2 ++ rest.flatten)).1 := by
          rw [ih hb']
      _ = (splitNl ((buffer ++ c) ++ rest.flatten)).1 := by
          rw [splitNl_append (buffer ++ c) rest.flatten]
      _ = (splitNl (buffer ++ (c :: rest).flatten)).1 := by
          simp [List.flatten_cons, List.append_assoc]

/-! ## Line records and event dispatch (part_001 lines 138-174, identical code
in workers.ts lines 163-199) -/

def dataMark : List Char := "data: ".toList

def doneLine : List Char := "data: [DONE]".toList

/-- A line is consumed iff it starts with `data: ` and is not the `[DONE]`
sentinel; its payload (the line minus the 6-character mark) is then parsed and
validated, `none` meaning the record is skipped (malformed JSON or failed
validation). -/
def parseDataLine (parse : List Char → Option StreamEvent) (line : List Char) :
    Option StreamEvent :=
  if line.take 6 = dataMark ∧ line ≠ doneLine then parse (line.drop 6) else none

/-- Loop-local state of one physical round trip: the carried execution
identifier, the `pendingToolCalls` buffer (`Option` distinguishes the JS
`null` from an empty captured list), and the `continueLoop` flag. -/
structure LoopSt where
  executionId : Option String
  pending : Option (List PendingToolCall)
  continueLoop : Bool
deriving DecidableEq

/-- Dispatch of one validated event (part_001 lines 146-169): a `start` with a
truthy executionId is adopted; `tool-request` is captured and not forwarded; a
`finish` with the tool-calls reason is suppressed while `pendingToolCalls` is
non-null, any other `finish` is forwarded and ends the loop; `resource-update`
invokes the callback (when supplied) and is still forwarded; everything else is
forwarded verbatim.  Returns the new state, the forwarded events and the
resource-update callback invocations. -/
def processEvent (hasRU : Bool) (st : LoopSt) (ev : StreamEvent) :
    LoopSt × List StreamEvent × List (String × JsonValue) :=
  let st :=
    match ev with
    | .start eid => if truthy eid then { st with executionId := eid } else st
    | _ => st
  match ev with
  | .toolRequest calls => ({ st with pending := some calls }, [], [])
  | .finish r _ =>
    if r = "tool-calls" ∧ st.pending.isSome then (st, [], [])
    else ({ st with continueLoop := false }, [ev], [])
  | .resourceUpdate n v => (st, [ev], if hasRU then [(n, v)] else [])
  | _ => (st, [ev], [])

def processLine (parse : List Char → Option StreamEvent) (hasRU : Bool)
    (st : LoopSt) (line : List Char) :
    LoopSt × List StreamEvent × List (String × JsonValue) :=
  match parseDataLine parse line with
  | none => (st, [], [])
  | some ev => processEvent hasRU st ev

def processLines (parse : List Char → Option StreamEvent) (hasRU : Bool) :
    LoopSt → List (List Char) → LoopSt × List StreamEvent × List (String × JsonValue)
  | st, [] => (st, [], [])
  | st, l :: ls =>
    let a := processLine parse hasRU st l
    let b := processLines parse hasRU a.1 ls
    (b.1, a.2.1 ++ b.2.1, a.2.2 ++ b.2.2)

def processEvents (hasRU : Bool) :
    LoopSt → List StreamEvent → LoopSt × List StreamEvent × List (String × JsonValue)
  | st, [] => (st, [], [])
  | st, e :: es =>
    let a := processEvent hasRU st e
    let b := processEvents hasRU a.1 es
    (b.1, a.2.1 ++ b.2.1, a.2.2 ++ b.2.2)

/-- The parsed-event sequence a chunked response body decodes to. -/
def parsedEventsOf (parse : List Char → Option StreamEvent)
    (chunks : List (List Char)) : List StreamEvent :=
  (decodeLines [] chunks).filterMap (parseDataLine parse)

/-! ## One physical round trip (part_001 lines 102-175, identical code in
workers.ts lines 124-200) -/

/-- How the response body's reads end after its chunks are exhausted: a normal
end-of-stream, an abort rejection, or another rejection (propagated). -/
inductive ReadEnd
  | done
  | abortErr
  | failErr
deriving DecidableEq

structure ReadOut where
  n : Nat
  st : LoopSt
  events : List StreamEvent
  ruCalls : List (String × JsonValue)
deriving DecidableEq

/-- Result of the stream-reading loop: normal end of stream, an observed abort
(the synthetic stop-finish already appended), or a propagated read failure. -/
inductive InnerResult
  | finished (o : ReadOut)
  | aborted (o : ReadOut)
  | thrownE (o : ReadOut)
deriving DecidableEq

def InnerResult.prepend (evs : List StreamEvent) (rus : List (String × JsonValue)) :
    InnerResult → InnerResult
  | .finished o => .finished { o with events := evs ++ o.events, ruCalls := rus ++ o.ruCalls }
  | .aborted o => .aborted { o with events := evs ++ o.events, ruCalls := rus ++ o.ruCalls }
  | .thrownE o => .thrownE { o with events := evs ++ o.events, ruCalls := rus ++ o.ruCalls }

/-- The `while (!streamDone)` loop (part_001 lines 108-175): before every read
poll the abort signal (a set signal yields the synthetic stop-finish and ends
the generator); a read either delivers the next chunk (append to buffer, split,
hold back the fragment, process the complete lines) or ends the stream
according to `ending`. -/
def readLoop (parse : List Char → Option StreamEvent) (hasRU : Bool)
    (signal : Nat → Bool) :
    List (List Char) → ReadEnd → Nat → List Char → LoopSt → InnerResult
  | chunks, ending, n, buffer, st =>
    if signal n then .aborted ⟨n + 1, st, [.finish "stop" none], []⟩
    else
      match chunks with
      | [] =>
        match ending with
        | .done => .finished ⟨n + 1, st, [], []⟩
        | .abortErr => .aborted ⟨n + 1, st, [.finish "stop" none], []⟩
        | .failErr => .thrownE ⟨n + 1, st, [], []⟩
      | c :: rest =>
        let p := splitNl (buffer ++ c)
        let a := processLines parse hasRU st p.1
        (readLoop parse hasRU signal rest ending (n + 1) p.2 a.1).prepend a.2.1 a.2.2

/-! ## Local tool execution (part_001 lines 182-220, workers.ts lines 209-247) -/

/-- Build the ToolResult of one locally-handled call (part_001 lines 187-211):
the handler's resolution becomes `result`; a rejection is caught and becomes
`error` (`err.message` for an `Error`, otherwise the fixed string).  The
handler lookup cannot fail for a call in the local set - the source asserts
this with a non-null assertion; the `none` branch mirrors the rejection text. -/
def mkServerResult (handlers : ToolHandlers) (tc : PendingToolCall) : ToolResult :=
  match handlers tc.toolName with
  | some handler =>
    match handler tc.args with
    | .ok v =>
      { toolCallId := tc.toolCallId, toolName := tc.toolName, result := some v,
        outputVariable := tc.outputVariable, blockIndex := tc.blockIndex,
        thread := tc.thread, workerId := tc.workerId }
    | .errMsg m =>
      { toolCallId := tc.toolCallId, toolName := tc.toolName, error := some m,
        outputVariable := tc.outputVariable, blockIndex := tc.blockIndex,
        thread := tc.thread, workerId := tc.workerId }
    | .errOther =>
      { toolCallId := tc.toolCallId, toolName := tc.toolName,
        error := some "Tool execution failed",
        outputVariable := tc.outputVariable, blockIndex := tc.blockIndex,
        thread := tc.thread, workerId := tc.workerId }
  | none =>
    { toolCallId := tc.toolCallId, toolName := tc.toolName,
      error := some "Tool execution failed",
      outputVariable := tc.outputVariable, blockIndex := tc.blockIndex,
      thread := tc.thread, workerId := tc.workerId }

/-- The tool-output event emitted for one server result (part_001 lines
214-220): `if (tr.error)` is a JS truthiness test, so an empty error string
falls through to `tool-output-available` with the (absent) result. -/
def outputEventOf (tr : ToolResult) : StreamEvent :=
  if truthy tr.error then .toolOutputError tr.toolCallId (tr.error.getD "")
  else .toolOutputAvailable tr.toolCallId (tr.result.getD .undef)

/-! ## The continuation state machine (part_001 lines 56-242)

The HTTP layer is an oracle: one `FetchOutcome` per round trip describes what
`fetch` and the response produced.  `notOk` carries the status and the message
`parseApiError` extracted from the error body (that helper is outside the
streaming module). -/

inductive FetchOutcome
  | abortErr
  | failErr
  | notOk (status : Nat) (message : String)
  | okNoBody
  | okBody (chunks : List (List Char)) (ending : ReadEnd)
deriving DecidableEq

/-- The state `buildBody` is called with for one round trip (part_001 line 71):
the carried execution identifier and the tool results of the immediately
preceding server-side resolution.  The body itself is whatever the
caller-supplied `buildBody` makes of this state, so recording the state records
the request. -/
structure ReqState where
  executionId : Option String
  toolResults : Option (List ToolResult)
deriving DecidableEq

/-- Observable trace of one invocation: the yielded events, the HTTP requests
issued (as the states their bodies were built from, in order) and the
resource-update callback invocations. -/
structure RunOut where
  events : List StreamEvent
  requests : List ReqState
  ruCalls : List (String × JsonValue)
deriving DecidableEq

/-- How the invocation ended: the generator returned, a failure propagated out
of it (transport failure), or the oracle's round-trip list was exhausted while
the loop still wanted another request (the stand-in for an invocation that
keeps issuing requests). -/
inductive RunResult
  | ok (o : RunOut)
  | thrown (o : RunOut)
  | noFuel (o : RunOut)
deriving DecidableEq

def RunResult.out : RunResult → RunOut
  | .ok o => o
  | .thrown o => o
  | .noFuel o => o

def RunResult.prepend (evs : List StreamEvent) (reqs : List ReqState)
    (rus : List (String × JsonValue)) : RunResult → RunResult
  | .ok o => .ok ⟨evs ++ o.events, reqs ++ o.requests, rus ++ o.ruCalls⟩
  | .thrown o => .thrown ⟨evs ++ o.events, reqs ++ o.requests, rus ++ o.ruCalls⟩
  | .noFuel o => .noFuel ⟨evs ++ o.events, reqs ++ o.requests, rus ++ o.ruCalls⟩

/-- The `while (continueLoop)` loop of `executeStream` (part_001 lines 65-241):
poll the signal, build and issue the request, translate transport failures,
non-2xx responses and missing bodies, stream the body through the frame decoder
and event dispatch, re-check the signal, then split the pending tool calls into
server and client sets, execute the server set, emit its tool-output events,
and either pause (client-tool-request plus synthetic finish), continue with the
server results as the next `toolResults`, or terminate. -/
def executeStreamLoop (handlers : ToolHandlers) (hasRU : Bool)
    (parse : List Char → Option StreamEvent) (signal : Nat → Bool) :
    List FetchOutcome → Nat → Option String → Option (List ToolResult) → RunResult
  | envs, n, executionId, toolResults =>
    if signal n then .ok ⟨[.finish "stop" none], [], []⟩
    else
      match envs with
      | [] => .noFuel ⟨[], [], []⟩
      | env :: rest =>
        let req : ReqState := ⟨executionId, toolResults⟩
        match env with
        | .abortErr => .ok ⟨[.finish "stop" none], [req], []⟩
        | .failErr => .thrown ⟨[], [req], []⟩
        | .notOk s m => .ok ⟨[.apiError s m], [req], []⟩
        | .okNoBody => .ok ⟨[.internalError "Response body is not readable"], [req], []⟩
        | .okBody chunks ending =>
          match readLoop parse hasRU signal chunks ending (n + 1) [] ⟨executionId, none, true⟩ with
          | .aborted o => .ok ⟨o.events, [req], o.ruCalls⟩
          | .thrownE o => .thrown ⟨o.events, [req], o.ruCalls⟩
          | .finished o =>
            if signal o.n then .ok ⟨o.events ++ [.finish "stop" none], [req], o.ruCalls⟩
            else
              match o.st.pending with
              | some (c :: cs) =>
                let calls := c :: cs
                let serverTools := calls.filter fun tc => (handlers tc.toolName).isSome
                let clientTools := calls.filter fun tc => !(handlers tc.toolName).isSome
                let serverResults := serverTools.map (mkServerResult handlers)
                let outEvs := serverResults.map outputEventOf
                if clientTools.isEmpty then
                  if o.st.continueLoop then
                    (executeStreamLoop handlers hasRU parse signal rest (o.n + 1)
                        o.st.executionId (some serverResults)).prepend
                      (o.events ++ outEvs) [req] o.ruCalls
                  else .ok ⟨o.events ++ outEvs, [req], o.ruCalls⟩
                else
                  if truthy o.st.executionId then
                    .ok ⟨o.events ++ outEvs ++
                        [.clientToolRequest (o.st.executionId.getD "") clientTools
                          (if serverResults.isEmpty then none else some serverResults),
                         .finish "client-tool-calls" o.st.executionId],
                      [req], o.ruCalls⟩
                  else
                    .ok ⟨o.events ++ outEvs ++
                        [.internalError "Missing executionId for client-tool-request"],
                      [req], o.ruCalls⟩
              | _ => .ok ⟨o.events, [req], o.ruCalls⟩

/-- Entry point mirroring `executeStream(config, payload, signal)`: the
invocation starts with the payload's execution identifier and tool results and
a fresh poll counter. -/
def executeStream (handlers : ToolHandlers) (hasRU : Bool)
    (parse : List Char → Option StreamEvent) (signal : Nat → Bool)
    (envs : List FetchOutcome) (payload : ReqState) : RunResult :=
  executeStreamLoop handlers hasRU parse signal envs 0 payload.executionId payload.toolResults

/-! ## The worker facade's inline loop (workers.ts lines 61-273)

src/packages/server-sdk/src/workers.ts carries its own copy of the same
continuation loop.  Its stream-reading and dispatch code (lines 124-200) is
token-for-token the code of part_001 lines 102-175 minus the resource-update
callback (workers never have one), so `readLoop` with `hasRU := false` is its
faithful embedding and is shared.  The differences are: the request body is
built inline from `isStart` and the current state (lines 83-86), and the
ToolResults it builds carry no `workerId` field (lines 217-236). -/

/-- Request bodies the worker loop sends (workers.ts lines 83-86):
`isStart && !executionId ? {type: 'start', input: payload.input}
: {type: 'continue', executionId, toolResults}`. -/
inductive WorkerBody
  | startB (input : JsonValue)
  | contB (executionId : Option String) (toolResults : Option (List ToolResult))
deriving DecidableEq

/-- The inline body rule as a function of the per-request state.  `input?` is
`payload.input` (absent on the continue path); `isStart` is its presence. -/
def workerBodyOf (input? : Option JsonValue) (r : ReqState) : WorkerBody :=
  if input?.isSome && !truthy r.executionId then .startB (input?.getD .undef)
  else .contB r.executionId r.toolResults

/-- ToolResult built by the worker loop (workers.ts lines 217-236): identical
to `mkServerResult` except that no `workerId` field is set. -/
def mkWorkerResult (handlers : ToolHandlers) (tc : PendingToolCall) : ToolResult :=
  match handlers tc.toolName with
  | some handler =>
    match handler tc.args with
    | .ok v =>
      { toolCallId := tc.toolCallId, toolName := tc.toolName, result := some v,
        outputVariable := tc.outputVariable, blockIndex := tc.blockIndex,
        thread := tc.thread }
    | .errMsg m =>
      { toolCallId := tc.toolCallId, toolName := tc.toolName, error := some m,
        outputVariable := tc.outputVariable, blockIndex := tc.blockIndex,
        thread := tc.thread }
    | .errOther =>
      { toolCallId := tc.toolCallId, toolName := tc.toolName,
        error := some "Tool execution failed",
        outputVariable := tc.outputVariable, blockIndex := tc.blockIndex,
        thread := tc.thread }
  | none =>
    { toolCallId := tc.toolCallId, toolName := tc.toolName,
      error := some "Tool execution failed",
      outputVariable := tc.outputVariable, blockIndex := tc.blockIndex,
      thread := tc.thread }

structure WRunOut where
  events : List StreamEvent
  requests : List WorkerBody
deriving DecidableEq

inductive WRunResult
  | ok (o : WRunOut)
  | thrown (o : WRunOut)
  | noFuel (o : WRunOut)
deriving DecidableEq

def WRunResult.prepend (evs : List StreamEvent) (reqs : List WorkerBody) :
    WRunResult → WRunResult
  | .ok o => .ok ⟨evs ++ o.events, reqs ++ o.requests⟩
  | .thrown o => .thrown ⟨evs ++ o.events, reqs ++ o.requests⟩
  | .noFuel o => .noFuel ⟨evs ++ o.events, reqs ++ o.requests⟩

/-- The `while (continueLoop)` loop of `executeWorkerStream` (workers.ts lines
75-272). -/
def executeWorkerStreamLoop (handlers : ToolHandlers)
    (parse : List Char → Option StreamEvent) (signal : Nat → Bool)
    (input? : Option JsonValue) :
    List FetchOutcome → Nat → Option String → Option (List ToolResult) → WRunResult
  | envs, n, executionId, toolResults =>
    if signal n then .ok ⟨[.finish "stop" none], []⟩
    else
      match envs with
      | [] => .noFuel ⟨[], []⟩
      | env :: rest =>
        let req : WorkerBody := workerBodyOf input? ⟨executionId, toolResults⟩
        match env with
        | .abortErr => .ok ⟨[.finish "stop" none], [req]⟩
        | .failErr => .thrown ⟨[], [req]⟩
        | .notOk s m => .ok ⟨[.apiError s m], [req]⟩
        | .okNoBody => .ok ⟨[.internalError "Response body is not readable"], [req]⟩
        | .okBody chunks ending =>
          match readLoop parse false signal chunks ending (n + 1) [] ⟨executionId, none, true⟩ with
          | .aborted o => .ok ⟨o.events, [req]⟩
          | .thrownE o => .thrown ⟨o.events, [req]⟩
          | .finished o =>
            if signal o.n then .ok ⟨o.events ++ [.finish "stop" none], [req]⟩
            else
              match o.st.pending with
              | some (c :: cs) =>
                let calls := c :: cs
                let serverTools := calls.filter fun tc => (handlers tc.toolName).isSome
                let clientTools := calls.filter fun tc => !(handlers tc.toolName).isSome
                let serverResults := serverTools.map (mkWorkerResult handlers)
                let outEvs := serverResults.map outputEventOf
                if clientTools.isEmpty then
                  if o.st.continueLoop then
                    (executeWorkerStreamLoop handlers parse signal input? rest (o.n + 1)
                        o.st.executionId (some serverResults)).prepend
                      (o.events ++ outEvs) [req]
                  else .ok ⟨o.events ++ outEvs, [req]⟩
                else
                  if truthy o.st.executionId then
                    .ok ⟨o.events ++ outEvs ++
                        [.clientToolRequest (o.st.executionId.getD "") clientTools
                          (if serverResults.isEmpty then none else some serverResults),
                         .finish "client-tool-calls" o.st.executionId],
                      [req]⟩
                  else
                    .ok ⟨o.events ++ outEvs ++
                        [.internalError "Missing executionId for client-tool-request"],
                      [req]⟩
              | _ => .ok ⟨o.events, [req]⟩

/-! ## SSE frame encoder (session.ts lines 64-84)

`toSSEStream` serializes each event as one `data: <json>\n\n` record and ends
with `data: [DONE]\n\n`.  `JSON.stringify` is the platform's encoder; it is
passed in as `enc`. -/

def sseRecord (enc : StreamEvent → List Char) (ev : StreamEvent) : List Char :=
  dataMark ++ enc ev ++ ['\n', '\n']

def toSSEStream (enc : StreamEvent → List Char) (events : List StreamEvent) :
    List Char :=
  (events.map (sseRecord enc)).flatten ++ (doneLine ++ ['\n', '\n'])

/-! ## Session facade resource dispatch (session.ts lines 106-118 and 242-247) -/

/-- A caller-supplied resource: its name plus an identity; its own update logic
is out of scope, so an update call is recorded as the pair (resource, value). -/
structure Resource where
  name : String
  rid : Nat
deriving DecidableEq

/-- `Map.set` on an association list: overwrite an existing binding for the
key, else append. -/
def mapSet (m : List (String × Resource)) (k : String) (v : Resource) :
    List (String × Resource) :=
  match m with
  | [] => [(k, v)]
  | (k', v') :: rest => if k' = k then (k, v) :: rest else (k', v') :: mapSet rest k v

def mapGet (m : List (String × Resource)) (k : String) : Option Resource :=
  match m with
  | [] => none
  | (k', v') :: rest => if k' = k then some v' else mapGet rest k

/-- The constructor's resource map (session.ts lines 113-117): insert each
resource under its name, later resources overwriting earlier ones. -/
def buildResourceMap (resources : List Resource) : List (String × Resource) :=
  resources.foldl (fun m r => mapSet m r.name r) []

/-- `handleResourceUpdate` (session.ts lines 242-247): look the name up in the
resource map and, if found, call that resource's `onUpdate` with the value;
unknown names are dropped.  Returns the update calls performed. -/
def handleResourceUpdate (m : List (String × Resource)) (name : String)
    (value : JsonValue) : List (Resource × JsonValue) :=
  match mapGet m name with
  | some r => [(r, value)]
  | none => []

/-! ## Event predicates used by the claims -/

def isFinishEvent : StreamEvent → Bool
  | .finish _ _ => true
  | _ => false

def isClientToolRequestEvent : StreamEvent → Bool
  | .clientToolRequest _ _ _ => true
  | _ => false

/-- A terminal signal in the sense of the spec's invariant: a `finish` event or
the `client-tool-request` half of the pause pair. -/
def isTerminalEvent (e : StreamEvent) : Bool :=
  isFinishEvent e || isClientToolRequestEvent e

def noTerminal (es : List StreamEvent) : Prop :=
  ∀ e ∈ es, isTerminalEvent e = false

/-- The event sequence is closed by exactly one terminal signal: either a
single `finish`, or the pair `client-tool-request` immediately followed by
`finish{finishReason: client-tool-calls}`, with no terminal signal earlier. -/
def closedByOneTerminal (es : List StreamEvent) : Prop :=
  (∃ pre r eid, es = pre ++ [.finish r eid] ∧ noTerminal pre) ∨
  (∃ pre eid calls srv,
    es = pre ++ [.clientToolRequest eid calls srv,
                 .finish "client-tool-calls" (some eid)] ∧ noTerminal pre)

def isTruthyStart : StreamEvent → Bool
  | .start eid => truthy eid
  | _ => false

/-- An event the dispatch of part_001 lines 146-169 merely forwards: neither a
`finish`, nor a `tool-request`, nor a `client-tool-request`. -/
def plainEvent : StreamEvent → Bool
  | .finish _ _ => false
  | .toolRequest _ => false
  | .clientToolRequest _ _ _ => false
  | _ => true

/-- Protocol well-formedness of one round trip's parsed event sequence: it
contains a `start` carrying a non-empty execution identifier, and is either a
run of plain events closed by a single `finish`, or a run of plain events with
one non-empty `tool-request` closed by a single `finish{finishReason:
tool-calls}`. -/
def wellFormedStream (es : List StreamEvent) : Prop :=
  (∃ s ∈ es, isTruthyStart s = true) ∧
  ((∃ pre r eid, es = pre ++ [.finish r eid] ∧ ∀ e ∈ pre, plainEvent e = true) ∨
   (∃ p1 calls p2 eid,
     es = p1 ++ [.toolRequest calls] ++ p2 ++ [.finish "tool-calls" eid] ∧
     calls ≠ [] ∧ ∀ e ∈ p1 ++ p2, plainEvent e = true))

/-- The resource-update (name, value) pairs carried by an event sequence. -/
def ruPairs (es : List StreamEvent) : List (String × JsonValue) :=
  es.filterMap fun e =>
    match e with
    | .resourceUpdate n v => some (n, v)
    | _ => none

/-! ## Factorization lemmas: the reading loop as a function of the parsed
event sequence -/

theorem processLines_append (parse : List Char → Option StreamEvent) (hasRU : Bool)
    (st : LoopSt) (xs ys : List (List Char)) :
    processLines parse hasRU st (xs ++ ys) =
      ((processLines parse hasRU (processLines parse hasRU st xs).1 ys).1,
       (processLines parse hasRU st xs).2.1 ++
         (processLines parse hasRU (processLines parse hasRU st xs).1 ys).2.1,
       (processLines parse hasRU st xs).2.2 ++
         (processLines parse hasRU (processLines parse hasRU st xs).1 ys).2.2) := by
  induction xs generalizing st with
  | nil => simp [processLines]
  | cons l ls ih => simp [processLines, ih]

theorem processEvents_append (hasRU : Bool) (st : LoopSt) (xs ys : List StreamEvent) :
    processEvents hasRU st (xs ++ ys) =
      ((processEvents hasRU (processEvents hasRU st xs).1 ys).1,
       (processEvents hasRU st xs).2.1 ++
         (processEvents hasRU (processEvents hasRU st xs).1 ys).2.1,
       (processEvents hasRU st xs).2.2 ++
         (processEvents hasRU (processEvents hasRU st xs).1 ys).2.2) := by
  induction xs generalizing st with
  | nil => simp [processEvents]
  | cons e es ih => simp [processEvents, ih]

/-- Processing the decoded lines is processing the validated events: lines that
are not data records or do not validate contribute nothing. -/
theorem processLines_eq_events (parse : List Char → Option StreamEvent)
    (hasRU : Bool) (st : LoopSt) (ls : List (List Char)) :
    processLines parse hasRU st ls =
      processEvents hasRU st (ls.filterMap (parseDataLine parse)) := by
  induction ls generalizing st with
  | nil => rfl
  | cons l ls ih =>
    cases h : parseDataLine parse l with
    | none => simp [processLines, processLine, h, ih, List.filterMap_cons]
    | some ev => simp [processLines, processLine, h, ih, List.filterMap_cons, processEvents]

/-- With the signal never set and a normally-ending stream, the reading loop
reduces to processing the validated events of the reassembled text. -/
theorem readLoop_no_signal (parse : List Char → Option StreamEvent)
    (hasRU : Bool) (signal : Nat → Bool) (hsig : ∀ k, signal k = false)
    (chunks : List (List Char)) :
    ∀ (n : Nat) (buffer : List Char) (st : LoopSt),
      readLoop parse hasRU signal chunks .done n buffer st =
        .finished ⟨n + chunks.length + 1,
          (processLines parse hasRU st (decodeLines buffer chunks)).1,
          (processLines parse hasRU st (decodeLines buffer chunks)).2.1,
          (processLines parse hasRU st (decodeLines buffer chunks)).2.2⟩ := by
  induction chunks with
  | nil =>
    intro n buffer st
    simp [readLoop, hsig, decodeLines, processLines]
  | cons c rest ih =>
    intro n buffer st
    rw [readLoop]
    simp only [hsig, if_false, Bool.false_eq_true]
    rw [ih]
    simp only [InnerResult.prepend, decodeLines, processLines_append]
    have : n + 1 + rest.length + 1 = n + (c :: rest).length + 1 := by
      simp; omega
    rw [this]

/-! ## Processing runs of plain events -/

/-- The execution identifier carried after dispatching a list of events: only a
`start` with a truthy identifier updates it. -/
def updExec (eid : Option String) : List StreamEvent → Option String
  | [] => eid
  | .start e :: es => updExec (if truthy e then e else eid) es
  | .finish _ _ :: es => updExec eid es
  | .toolRequest _ :: es => updExec eid es
  | .clientToolRequest _ _ _ :: es => updExec eid es
  | .toolOutputAvailable _ _ :: es => updExec eid es
  | .toolOutputError _ _ :: es => updExec eid es
  | .resourceUpdate _ _ :: es => updExec eid es
  | .internalError _ :: es => updExec eid es
  | .apiError _ _ :: es => updExec eid es
  | .otherEvent _ _ :: es => updExec eid es

theorem plainEvent_not_terminal {e : StreamEvent} (h : plainEvent e = true) :
    isTerminalEvent e = false := by
  cases e <;> simp_all [plainEvent, isTerminalEvent, isFinishEvent, isClientToolRequestEvent]

/-- Dispatching a run of plain events forwards them unchanged, performs the
resource-update callbacks, updates only the execution identifier, and leaves
`pendingToolCalls` and `continueLoop` alone. -/
theorem processEvents_plain (hasRU : Bool) (st : LoopSt) (es : List StreamEvent)
    (h : ∀ e ∈ es, plainEvent e = true) :
    processEvents hasRU st es =
      (⟨updExec st.executionId es, st.pending, st.continueLoop⟩, es,
        if hasRU then ruPairs es else []) := by
  induction es generalizing st with
  | nil => simp [processEvents, updExec, ruPairs]
  | cons e es ih =>
    have he : plainEvent e = true := h e (List.mem_cons_self e es)
    have hes : ∀ x ∈ es, plainEvent x = true := fun x hx => h x (List.mem_cons_of_mem e hx)
    cases e with
    | start eid =>
      by_cases ht : truthy eid = true
      · simp [processEvents, processEvent, ht, ih _ hes, updExec, ruPairs]
      · simp only [Bool.not_eq_true] at ht
        simp [processEvents, processEvent, ht, ih _ hes, updExec, ruPairs]
    | finish r eid => simp [plainEvent] at he
    | toolRequest calls => simp [plainEvent] at he
    | clientToolRequest a b c => simp [plainEvent] at he
    | toolOutputAvailable a b =>
      simp [processEvents, processEvent, ih _ hes, updExec, ruPairs]
    | toolOutputError a b =>
      simp [processEvents, processEvent, ih _ hes, updExec, ruPairs]
    | resourceUpdate nm v =>
      cases hasRU <;>
        simp [processEvents, processEvent, ih _ hes, updExec, ruPairs, List.filterMap_cons]
    | internalError m =>
      simp [processEvents, processEvent, ih _ hes, updExec, ruPairs]
    | apiError s m =>
      simp [processEvents, processEvent, ih _ hes, updExec, ruPairs]
    | otherEvent t p =>
      simp [processEvents, processEvent, ih _ hes, updExec, ruPairs]

theorem updExec_truthy_of_truthy {eid : Option String} (es : List StreamEvent)
    (h : truthy eid = true) : truthy (updExec eid es) = true := by
  induction es generalizing eid with
  | nil => simpa [updExec]
  | cons e es ih =>
    cases e with
    | start e' =>
      by_cases ht : truthy e' = true
      · simp [updExec, ht]; exact ih ht
      · simp only [Bool.not_eq_true] at ht
        simp [updExec, ht]; exact ih h
    | finish r eid' => simp [updExec]; exact ih h
    | toolRequest c => simp [updExec]; exact ih h
    | clientToolRequest a b c => simp [updExec]; exact ih h
    | toolOutputAvailable a b => simp [updExec]; exact ih h
    | toolOutputError a b => simp [updExec]; exact ih h
    | resourceUpdate a b => simp [updExec]; exact ih h
    | internalError a => simp [updExec]; exact ih h
    | apiError a b => simp [updExec]; exact ih h
    | otherEvent a b => simp [updExec]; exact ih h

theorem updExec_truthy_of_start {eid : Option String} {es : List StreamEvent}
    (h : ∃ s ∈ es, isTruthyStart s = true) : truthy (updExec eid es) = true := by
  induction es generalizing eid with
  | nil => simp at h
  | cons e es ih =>
    rcases h with ⟨s, hs, hts⟩
    rcases List.mem_cons.mp hs with rfl | hmem
    · cases s with
      | start e' =>
        have ht : truthy e' = true := by simpa [isTruthyStart] using hts
        simp [updExec, ht]
        exact updExec_truthy_of_truthy es ht
      | finish r eid' => simp [isTruthyStart] at hts
      | toolRequest c => simp [isTruthyStart] at hts
      | clientToolRequest a b c => simp [isTruthyStart] at hts
      | toolOutputAvailable a b => simp [isTruthyStart] at hts
      | toolOutputError a b => simp [isTruthyStart] at hts
      | resourceUpdate a b => simp [isTruthyStart] at hts
      | internalError a => simp [isTruthyStart] at hts
      | apiError a b => simp [isTruthyStart] at hts
      | otherEvent a b => simp [isTruthyStart] at hts
    · cases e <;> simp [updExec] <;> apply ih ⟨s, hmem, hts⟩

theorem updExec_no_start {eid : Option String} {es : List StreamEvent}
    (h : ∀ s ∈ es, isTruthyStart s = false) : updExec eid es = eid := by
  induction es generalizing eid with
  | nil => rfl
  | cons e es ih =>
    have he := h e (List.mem_cons_self e es)
    have hes : ∀ s ∈ es, isTruthyStart s = false := fun s hs => h s (List.mem_cons_of_mem e hs)
    cases e with
    | start e' =>
      have : truthy e' = false := by simpa [isTruthyStart] using he
      simp [updExec, this, ih hes]
    | finish r eid' => simp [updExec, ih hes]
    | toolRequest c => simp [updExec, ih hes]
    | clientToolRequest a b c => simp [updExec, ih hes]
    | toolOutputAvailable a b => simp [updExec, ih hes]
    | toolOutputError a b => simp [updExec, ih hes]
    | resourceUpdate a b => simp [updExec, ih hes]
    | internalError a => simp [updExec, ih hes]
    | apiError a b => simp [updExec, ih hes]
    | otherEvent a b => simp [updExec, ih hes]

theorem noTerminal_append {a b : List StreamEvent} (ha : noTerminal a)
    (hb : noTerminal b) : noTerminal (a ++ b) := by
  intro e he
  rcases List.mem_append.mp he with h | h
  · exact ha e h
  · exact hb e h

theorem noTerminal_plain {es : List StreamEvent}
    (h : ∀ e ∈ es, plainEvent e = true) : noTerminal es :=
  fun e he => plainEvent_not_terminal (h e he)

theorem outputEventOf_not_terminal (tr : ToolResult) :
    isTerminalEvent (outputEventOf tr) = false := by
  unfold outputEventOf
  split <;> rfl

theorem noTerminal_outputs (trs : List ToolResult) :
    noTerminal (trs.map outputEventOf) := by
  intro e he
  rcases List.mem_map.mp he with ⟨tr, _, rfl⟩
  exact outputEventOf_not_terminal tr

theorem closedByOneTerminal_prepend {pre es : List StreamEvent}
    (hp : noTerminal pre) (h : closedByOneTerminal es) :
    closedByOneTerminal (pre ++ es) := by
  rcases h with ⟨q, r, eid, rfl, hq⟩ | ⟨q, eid, calls, srv, rfl, hq⟩
  · exact Or.inl ⟨pre ++ q, r, eid, by simp, noTerminal_append hp hq⟩
  · exact Or.inr ⟨pre ++ q, eid, calls, srv, by simp, noTerminal_append hp hq⟩

/-- Dispatching a well-formed round trip without a tool request: the plain
events are forwarded, the finish is forwarded and stops the loop, nothing is
left pending. -/
theorem processEvents_round_finish (hasRU : Bool) (eid : Option String)
    (pre : List StreamEvent) (r : String) (fid : Option String)
    (hp : ∀ e ∈ pre, plainEvent e = true) :
    processEvents hasRU ⟨eid, none, true⟩ (pre ++ [.finish r fid]) =
      (⟨updExec eid pre, none, false⟩, pre ++ [.finish r fid],
        if hasRU then ruPairs pre else []) := by
  rw [processEvents_append, processEvents_plain _ _ _ hp]
  simp [processEvents, processEvent]

/-- Dispatching a well-formed round trip with a tool request: the plain events
are forwarded, the tool request is captured without being forwarded, and the
tool-calls finish is suppressed, leaving the loop flag set. -/
theorem processEvents_round_toolRequest (hasRU : Bool) (eid : Option String)
    (p1 p2 : List StreamEvent) (calls : List PendingToolCall) (fid : Option String)
    (hp1 : ∀ e ∈ p1, plainEvent e = true) (hp2 : ∀ e ∈ p2, plainEvent e = true) :
    processEvents hasRU ⟨eid, none, true⟩
        (p1 ++ [.toolRequest calls] ++ p2 ++ [.finish "tool-calls" fid]) =
      (⟨updExec (updExec eid p1) p2, some calls, true⟩, p1 ++ p2,
        (if hasRU then ruPairs p1 else []) ++ (if hasRU then ruPairs p2 else [])) := by
  have assoc : p1 ++ [StreamEvent.toolRequest calls] ++ p2 ++ [.finish "tool-calls" fid] =
      p1 ++ (StreamEvent.toolRequest calls :: (p2 ++ [.finish "tool-calls" fid])) := by
    simp
  rw [assoc, processEvents_append, processEvents_plain _ _ _ hp1]
  simp only [processEvents, processEvent]
  rw [processEvents_append, processEvents_plain _ _ _ hp2]
  simp [processEvents, processEvent]

theorem wf_truthy_updExec {eid : Option String} {p1 p2 : List StreamEvent}
    {calls : List PendingToolCall} {fid : Option String}
    (h : ∃ s ∈ p1 ++ [StreamEvent.toolRequest calls] ++ p2 ++
          [StreamEvent.finish "tool-calls" fid], isTruthyStart s = true) :
    truthy (updExec (updExec eid p1) p2) = true := by
  rcases h with ⟨s, hs, hts⟩
  simp only [List.mem_append, List.mem_singleton] at hs
  rcases hs with ((h1 | h2) | h3) | h4
  · exact updExec_truthy_of_truthy p2 (updExec_truthy_of_start ⟨s, h1, hts⟩)
  · rw [h2] at hts; simp [isTruthyStart] at hts
  · exact updExec_truthy_of_start ⟨s, h3, hts⟩
  · rw [h4] at hts; simp [isTruthyStart] at hts

/-- Claim C1, amended terminal invariant: with no cancellation, every round
trip returning a readable 2xx stream, and every round trip's parsed event
sequence protocol well-formed (a truthy start; plain events closed by one
finish, or plain events plus one non-empty tool-request closed by one
tool-calls finish), an invocation of the continuation loop that returns
normally yields a sequence closed by exactly one terminal signal: a single
finish, or the client-tool-request / finish pair. -/
theorem executeStreamLoop_closed_terminal
    (handlers : ToolHandlers) (hasRU : Bool)
    (parse : List Char → Option StreamEvent) (signal : Nat → Bool)
    (hsig : ∀ k, signal k = false) :
    ∀ (envs : List FetchOutcome) (n : Nat) (eid : Option String)
      (tr : Option (List ToolResult)) (out : RunOut),
      (∀ env ∈ envs, ∃ chunks, env = FetchOutcome.okBody chunks .done ∧
        wellFormedStream (parsedEventsOf parse chunks)) →
      executeStreamLoop handlers hasRU parse signal envs n eid tr = .ok out →
      closedByOneTerminal out.events := by
  intro envs
  induction envs with
  | nil =>
    intro n eid tr out henv hrun
    rw [executeStreamLoop] at hrun
    simp [hsig] at hrun
  | cons env rest ih =>
    intro n eid tr out henv hrun
    obtain ⟨chunks, rfl, hwf⟩ := henv env (List.mem_cons_self env rest)
    have hrest : ∀ e ∈ rest, ∃ chunks, e = FetchOutcome.okBody chunks .done ∧
        wellFormedStream (parsedEventsOf parse chunks) :=
      fun e he => henv e (List.mem_cons_of_mem _ he)
    rw [executeStreamLoop] at hrun
    simp only [hsig, Bool.false_eq_true, if_false] at hrun
    rw [readLoop_no_signal parse hasRU signal hsig] at hrun
    rw [processLines_eq_events] at hrun
    obtain ⟨hstart, hshape⟩ := hwf
    rcases hshape with ⟨pre, r, fid, hes, hp⟩ | ⟨p1, calls, p2, fid, hes, hne, hp⟩
    · have hpe : List.filterMap (parseDataLine parse) (decodeLines [] chunks) =
          pre ++ [StreamEvent.finish r fid] := hes
      rw [hpe, processEvents_round_finish hasRU eid pre r fid hp] at hrun
      simp only [hsig, Bool.false_eq_true, if_false] at hrun
      obtain rfl := RunResult.ok.inj hrun
      exact Or.inl ⟨pre, r, fid, rfl, noTerminal_plain hp⟩
    · have hp1 : ∀ e ∈ p1, plainEvent e = true := fun e he =>
        hp e (by simp [he])
      have hp2 : ∀ e ∈ p2, plainEvent e = true := fun e he =>
        hp e (by simp [he])
      have hpe : List.filterMap (parseDataLine parse) (decodeLines [] chunks) =
          p1 ++ [StreamEvent.toolRequest calls] ++ p2 ++
            [StreamEvent.finish "tool-calls" fid] := hes
      rw [hpe, processEvents_round_toolRequest hasRU eid p1 p2 calls fid hp1 hp2] at hrun
      simp only [hsig, Bool.false_eq_true, if_false] at hrun
      rw [hes] at hstart
      have htruthy : truthy (updExec (updExec eid p1) p2) = true :=
        wf_truthy_updExec hstart
      obtain ⟨c, cs, rfl⟩ : ∃ c cs, calls = c :: cs := by
        cases calls with
        | nil => exact absurd rfl hne
        | cons c cs => exact ⟨c, cs, rfl⟩
      simp only [] at hrun
      by_cases hclient :
          ((c :: cs).filter fun tc => !(handlers tc.toolName).isSome).isEmpty
      · simp only [hclient, eq_self_iff_true, if_true, Bool.false_eq_true, if_false] at hrun
        cases hinner : executeStreamLoop handlers hasRU parse signal rest
            (n + 1 + chunks.length + 1 + 1) (updExec (updExec eid p1) p2)
            (some ((((c :: cs).filter fun tc => (handlers tc.toolName).isSome)).map
              (mkServerResult handlers))) with
        | ok o =>
          rw [hinner] at hrun
          simp only [RunResult.prepend, RunResult.ok.injEq] at hrun
          rcases hrun with rfl
          have hclosed := ih (n + 1 + chunks.length + 1 + 1) _ _ o hrest hinner
          exact closedByOneTerminal_prepend
            (noTerminal_append (noTerminal_append (noTerminal_plain hp1) (noTerminal_plain hp2))
              (noTerminal_outputs _)) hclosed
        | thrown o => rw [hinner] at hrun; simp [RunResult.prepend] at hrun
        | noFuel o => rw [hinner] at hrun; simp [RunResult.prepend] at hrun
      · simp only [hclient, htruthy, eq_self_iff_true, if_true, Bool.false_eq_true,
          if_false] at hrun
        obtain rfl := RunResult.ok.inj hrun
        obtain ⟨s, hs⟩ : ∃ s, updExec (updExec eid p1) p2 = some s := by
          cases hu : updExec (updExec eid p1) p2 with
          | none => rw [hu] at htruthy; simp [truthy] at htruthy
          | some s => exact ⟨s, rfl⟩
        refine Or.inr ⟨(p1 ++ p2) ++
          ((((c :: cs).filter fun tc => (handlers tc.toolName).isSome)).map
            (mkServerResult handlers)).map outputEventOf, s,
          ((c :: cs).filter fun tc => !(handlers tc.toolName).isSome),
          (if ((((c :: cs).filter fun tc => (handlers tc.toolName).isSome)).map
              (mkServerResult handlers)).isEmpty then none
           else some ((((c :: cs).filter fun tc => (handlers tc.toolName).isSome)).map
              (mkServerResult handlers))), ?_, ?_⟩
        · simp [hs]
        · exact noTerminal_append (noTerminal_append (noTerminal_plain hp1) (noTerminal_plain hp2))
            (noTerminal_outputs _)

/-! ## Concrete oracles for witnesses and counterexamples -/

def noHandlers : ToolHandlers := fun _ => none

/-- One handler registered under the name `loc`. -/
def sampleHandlers : ToolHandlers := fun name =>
  if name = "loc" then some (fun _ => .ok (.jstr "out1")) else none

/-- One handler registered under `bad` that rejects with an `Error` whose
message is the empty string. -/
def emptyErrHandlers : ToolHandlers := fun name =>
  if name = "bad" then some (fun _ => .errMsg "") else none

def callA : PendingToolCall := { toolCallId := "c1", toolName := "loc", args := .jnull }

def callB : PendingToolCall := { toolCallId := "c2", toolName := "ext", args := .jnull }

def callBad : PendingToolCall := { toolCallId := "c3", toolName := "bad", args := .jnull }

def callW : PendingToolCall :=
  { toolCallId := "c4", toolName := "loc", args := .jnull, workerId := some "w1" }

/-- A concrete stand-in for `JSON.parse` + `safeParseStreamEvent` mapping short
payloads to events. -/
def sampleParse : List Char → Option StreamEvent
  | ['S'] => some (.start (some "e1"))
  | ['F'] => some (.finish "stop" none)
  | ['F', 'T'] => some (.toolRequest [callA, callB])
  | ['F', 'C'] => some (.finish "tool-calls" none)
  | ['T', 'L'] => some (.toolRequest [callA])
  | ['T', 'E'] => some (.toolRequest [callB])
  | ['T', 'B'] => some (.toolRequest [callBad])
  | ['T', 'W'] => some (.toolRequest [callW])
  | ['T', '0'] => some (.toolRequest [])
  | ['R'] => some (.resourceUpdate "X" (.jstr "v"))
  | _ => none

/-- A parse oracle that yields no start events at all: used for runs in which
no execution identifier is ever captured. -/
def parseNoStart : List Char → Option StreamEvent
  | ['T', 'E'] => some (.toolRequest [callA, callB])
  | ['F', 'C'] => some (.finish "tool-calls" none)
  | _ => none

def sigFalse : Nat → Bool := fun _ => false

def sigTrue : Nat → Bool := fun _ => true

/-- Claim C1, counterexample: a parsed stream consisting of a `tool-request`
with an empty tool-call list followed by `finish{finishReason: tool-calls}`
makes the engine suppress the finish (the captured empty array is truthy) and
then skip the tool branch (`length > 0` fails), so the invocation terminates
with no terminal event at all. -/
theorem executeStream_silent_termination :
    executeStream noHandlers false sampleParse sigFalse
        [.okBody ["data: T0\ndata: FC\n".toList] .done] ⟨none, none⟩ =
      .ok ⟨[], [⟨none, none⟩], []⟩ ∧
    ¬ closedByOneTerminal ([] : List StreamEvent) := by
  constructor
  · decide
  · rintro (⟨pre, r, eid, h, -⟩ | ⟨pre, eid, calls, srv, h, -⟩)
    · exact absurd h (by simp)
    · exact absurd h (by simp)

/-- Claim C1, witness for the amended theorem: a well-formed single round trip
(start with a truthy identifier, then a stop finish) yields a sequence closed
by exactly one terminal signal. -/
theorem executeStreamLoop_closed_terminal_witness :
    closedByOneTerminal [StreamEvent.start (some "e1"), .finish "stop" none] := by
  have h := executeStreamLoop_closed_terminal noHandlers false sampleParse sigFalse
    (fun _ => rfl) [.okBody ["data: S\ndata: F\n".toList] .done] 0 none none
    ⟨[.start (some "e1"), .finish "stop" none], [⟨none, none⟩], []⟩
    (by
      intro env henv
      rcases List.mem_singleton.mp henv with rfl
      refine ⟨_, rfl, ⟨StreamEvent.start (some "e1"), by decide, by decide⟩,
        Or.inl ⟨[StreamEvent.start (some "e1")], "stop", none, by decide, by decide⟩⟩)
    (by decide)
  exact h

/-- Claim C5: if the cancellation token is already set when the state machine
is entered, the invocation yields exactly the synthetic
`finish{finishReason: stop}` and issues no HTTP request (part_001 lines
66-69). -/
theorem executeStream_preAborted (handlers : ToolHandlers) (hasRU : Bool)
    (parse : List Char → Option StreamEvent) (signal : Nat → Bool)
    (envs : List FetchOutcome) (payload : ReqState) (h : signal 0 = true) :
    executeStream handlers hasRU parse signal envs payload =
      .ok ⟨[.finish "stop" none], [], []⟩ := by
  unfold executeStream
  rw [executeStreamLoop.eq_def]
  simp [h]

/-- Claim C5, witness: a concrete pre-aborted invocation yields only the stop
finish and records no request. -/
theorem executeStream_preAborted_witness :
    executeStream noHandlers false sampleParse sigTrue
        [.okBody ["data: S\ndata: F\n".toList] .done] ⟨none, none⟩ =
      .ok ⟨[.finish "stop" none], [], []⟩ :=
  executeStream_preAborted noHandlers false sampleParse sigTrue
    [.okBody ["data: S\ndata: F\n".toList] .done] ⟨none, none⟩ rfl

theorem mkServerResult_toolCallId (handlers : ToolHandlers) (tc : PendingToolCall) :
    (mkServerResult handlers tc).toolCallId = tc.toolCallId := by
  unfold mkServerResult
  split
  · split <;> rfl
  · rfl

def isToolOutputErrorEvent : StreamEvent → Bool
  | .toolOutputError _ _ => true
  | _ => false

theorem outputEventOf_shape (handlers : ToolHandlers) (tc : PendingToolCall) :
    (∃ v, outputEventOf (mkServerResult handlers tc) = .toolOutputAvailable tc.toolCallId v) ∨
    (∃ m, outputEventOf (mkServerResult handlers tc) = .toolOutputError tc.toolCallId m) := by
  by_cases he : truthy (mkServerResult handlers tc).error = true
  · exact Or.inr ⟨(mkServerResult handlers tc).error.getD "",
      by rw [outputEventOf, if_pos he, mkServerResult_toolCallId]⟩
  · exact Or.inl ⟨(mkServerResult handlers tc).result.getD .undef,
      by rw [outputEventOf, if_neg he, mkServerResult_toolCallId]⟩

/-- Claim C2: a single round trip whose stream captures an execution identifier
and requests two tool calls, A with a handler and B without, yields the events
of the stream, then A's tool-output event, then one `client-tool-request`
carrying only B with A's result as a server result, then
`finish{finishReason: client-tool-calls}` - and issues no further HTTP request
(part_001 lines 182-234). -/
theorem executeStream_split_round (handlers : ToolHandlers) (hasRU : Bool)
    (parse : List Char → Option StreamEvent) (signal : Nat → Bool)
    (chunks : List (List Char)) (A B : PendingToolCall) (s : String)
    (tr0 : Option (List ToolResult))
    (hsig : ∀ k, signal k = false) (hs : s ≠ "")
    (hA : (handlers A.toolName).isSome = true) (hB : handlers B.toolName = none)
    (hparsed : parsedEventsOf parse chunks =
      [.start (some s), .toolRequest [A, B], .finish "tool-calls" none]) :
    executeStream handlers hasRU parse signal [.okBody chunks .done] ⟨none, tr0⟩ =
      .ok ⟨[.start (some s), outputEventOf (mkServerResult handlers A),
            .clientToolRequest s [B] (some [mkServerResult handlers A]),
            .finish "client-tool-calls" (some s)],
          [⟨none, tr0⟩], []⟩ ∧
    ((∃ v, outputEventOf (mkServerResult handlers A) = .toolOutputAvailable A.toolCallId v) ∨
     (∃ m, outputEventOf (mkServerResult handlers A) = .toolOutputError A.toolCallId m)) := by
  refine ⟨?_, outputEventOf_shape handlers A⟩
  unfold executeStream
  rw [executeStreamLoop.eq_def]
  simp only [hsig, Bool.false_eq_true, if_false]
  rw [readLoop_no_signal parse hasRU signal hsig]
  rw [processLines_eq_events]
  have hpe : List.filterMap (parseDataLine parse) (decodeLines [] chunks) =
      [StreamEvent.start (some s)] ++ [StreamEvent.toolRequest [A, B]] ++ [] ++
        [StreamEvent.finish "tool-calls" none] := by
    have h' : List.filterMap (parseDataLine parse) (decodeLines [] chunks) =
        [StreamEvent.start (some s), .toolRequest [A, B], .finish "tool-calls" none] :=
      hparsed
    rw [h']; simp
  rw [hpe, processEvents_round_toolRequest hasRU none [.start (some s)] [] [A, B] none
    (by intro e he; rcases List.mem_singleton.mp he with rfl; rfl)
    (by intro e he; simp at he)]
  have htr : truthy (some s) = true := by simp [truthy, hs]
  simp only [updExec, htr, if_true, hsig, Bool.false_eq_true, if_false]
  simp [List.filter, hA, hB, htr, ruPairs]

/-- Claim C2, witness: the concrete mixed round trip with the sample handler
mapping. -/
theorem executeStream_split_round_witness :
    executeStream sampleHandlers false sampleParse sigFalse
        [.okBody ["data: S\ndata: FT\ndata: FC\n".toList] .done] ⟨none, none⟩ =
      .ok ⟨[.start (some "e1"),
            outputEventOf (mkServerResult sampleHandlers callA),
            .clientToolRequest "e1" [callB] (some [mkServerResult sampleHandlers callA]),
            .finish "client-tool-calls" (some "e1")],
          [⟨none, none⟩], []⟩ :=
  (executeStream_split_round sampleHandlers false sampleParse sigFalse
    ["data: S\ndata: FT\ndata: FC\n".toList] callA callB "e1" none
    (fun _ => rfl) (by decide) rfl rfl (by decide)).1

/-- Computation of the all-local two-round scenario: one round trip requesting
only locally-handled calls, one continuation round trip closing with a stop
finish. -/
theorem executeStream_allLocal_run (handlers : ToolHandlers) (hasRU : Bool)
    (parse : List Char → Option StreamEvent) (signal : Nat → Bool)
    (c1 c2 : List (List Char)) (calls : List PendingToolCall)
    (eid0 : Option String) (tr0 : Option (List ToolResult))
    (hsig : ∀ k, signal k = false) (hne : calls ≠ [])
    (hloc : ∀ tc ∈ calls, (handlers tc.toolName).isSome = true)
    (hp1 : parsedEventsOf parse c1 = [.toolRequest calls, .finish "tool-calls" none])
    (hp2 : parsedEventsOf parse c2 = [.finish "stop" none]) :
    executeStream handlers hasRU parse signal
        [.okBody c1 .done, .okBody c2 .done] ⟨eid0, tr0⟩ =
      .ok ⟨(calls.map fun tc => outputEventOf (mkServerResult handlers tc)) ++
            [.finish "stop" none],
          [⟨eid0, tr0⟩, ⟨eid0, some (calls.map (mkServerResult handlers))⟩], []⟩ := by
  unfold executeStream
  rw [executeStreamLoop.eq_def]
  simp only [hsig, Bool.false_eq_true, if_false]
  rw [readLoop_no_signal parse hasRU signal hsig, processLines_eq_events]
  have hpe1 : List.filterMap (parseDataLine parse) (decodeLines [] c1) =
      [] ++ [StreamEvent.toolRequest calls] ++ [] ++
        [StreamEvent.finish "tool-calls" none] := by
    have h' : List.filterMap (parseDataLine parse) (decodeLines [] c1) =
        [StreamEvent.toolRequest calls, .finish "tool-calls" none] := hp1
    rw [h']; simp
  rw [hpe1, processEvents_round_toolRequest hasRU eid0 [] [] calls none
    (by simp) (by simp)]
  simp only [updExec, hsig, Bool.false_eq_true, if_false]
  obtain ⟨c, cs, rfl⟩ : ∃ c cs, calls = c :: cs := by
    cases calls with
    | nil => exact absurd rfl hne
    | cons c cs => exact ⟨c, cs, rfl⟩
  have hserver : (c :: cs).filter (fun tc => (handlers tc.toolName).isSome) = c :: cs :=
    List.filter_eq_self.mpr hloc
  have hclient : (c :: cs).filter (fun tc => !(handlers tc.toolName).isSome) = [] := by
    rw [List.filter_eq_nil_iff]
    intro a ha
    simp [hloc a ha]
  simp only [hserver, hclient, List.isEmpty_nil, if_true]
  rw [executeStreamLoop.eq_def]
  simp only [hsig, Bool.false_eq_true, if_false]
  rw [readLoop_no_signal parse hasRU signal hsig, processLines_eq_events]
  have hpe2 : List.filterMap (parseDataLine parse) (decodeLines [] c2) =
      [] ++ [StreamEvent.finish "stop" none] := hp2
  rw [hpe2, processEvents_round_finish hasRU eid0 [] "stop" none (by simp)]
  simp [RunResult.prepend, updExec, ruPairs, List.map_map, Function.comp, hsig]

/-- Claim C3: a round trip whose tool-request lists only locally-handled calls
makes the engine issue exactly one further HTTP request whose body state
carries the computed results as `toolResults`, with no `client-tool-request`
ever emitted in the invocation (part_001 lines 235-240 and 65-71). -/
theorem executeStream_all_local (handlers : ToolHandlers) (hasRU : Bool)
    (parse : List Char → Option StreamEvent) (signal : Nat → Bool)
    (c1 c2 : List (List Char)) (calls : List PendingToolCall)
    (eid0 : Option String) (tr0 : Option (List ToolResult))
    (hsig : ∀ k, signal k = false) (hne : calls ≠ [])
    (hloc : ∀ tc ∈ calls, (handlers tc.toolName).isSome = true)
    (hp1 : parsedEventsOf parse c1 = [.toolRequest calls, .finish "tool-calls" none])
    (hp2 : parsedEventsOf parse c2 = [.finish "stop" none]) :
    executeStream handlers hasRU parse signal
        [.okBody c1 .done, .okBody c2 .done] ⟨eid0, tr0⟩ =
      .ok ⟨(calls.map fun tc => outputEventOf (mkServerResult handlers tc)) ++
            [.finish "stop" none],
          [⟨eid0, tr0⟩, ⟨eid0, some (calls.map (mkServerResult handlers))⟩], []⟩ ∧
    (∀ e ∈ (calls.map fun tc => outputEventOf (mkServerResult handlers tc)) ++
        [StreamEvent.finish "stop" none], isClientToolRequestEvent e = false) := by
  refine ⟨executeStream_allLocal_run handlers hasRU parse signal c1 c2 calls eid0 tr0
    hsig hne hloc hp1 hp2, ?_⟩
  intro e he
  rcases List.mem_append.mp he with h | h
  · rcases List.mem_map.mp h with ⟨tc, -, rfl⟩
    unfold outputEventOf
    split <;> rfl
  · rcases List.mem_singleton.mp h with rfl
    rfl

/-- Claim C3, witness: the concrete all-local continuation with one handled
call. -/
theorem executeStream_all_local_witness :
    executeStream sampleHandlers false sampleParse sigFalse
        [.okBody ["data: TL\ndata: FC\n".toList] .done,
         .okBody ["data: F\n".toList] .done] ⟨none, none⟩ =
      .ok ⟨([callA].map fun tc => outputEventOf (mkServerResult sampleHandlers tc)) ++
            [.finish "stop" none],
          [⟨none, none⟩, ⟨none, some ([callA].map (mkServerResult sampleHandlers))⟩], []⟩ ∧
    isClientToolRequestEvent (StreamEvent.finish "stop" none) = false := by
  have h := executeStream_all_local sampleHandlers false sampleParse sigFalse
    ["data: TL\ndata: FC\n".toList] ["data: F\n".toList] [callA] none none
    (fun _ => rfl) (by decide)
    (by intro tc htc; rcases List.mem_singleton.mp htc with rfl; rfl)
    (by decide) (by decide)
  exact ⟨h.1, h.2 (StreamEvent.finish "stop" none) (by decide)⟩

/-! ## Invariants of arbitrary runs: no client-tool-request without a truthy
execution identifier -/

def InnerResult.out : InnerResult → ReadOut
  | .finished o => o
  | .aborted o => o
  | .thrownE o => o

theorem innerPrepend_out_events (evs : List StreamEvent)
    (rus : List (String × JsonValue)) (r : InnerResult) :
    ((InnerResult.prepend evs rus r).out).events = evs ++ r.out.events := by
  cases r <;> rfl

theorem innerPrepend_out_st (evs : List StreamEvent)
    (rus : List (String × JsonValue)) (r : InnerResult) :
    ((InnerResult.prepend evs rus r).out).st = r.out.st := by
  cases r <;> rfl

theorem runPrepend_out_events (evs : List StreamEvent) (reqs : List ReqState)
    (rus : List (String × JsonValue)) (r : RunResult) :
    ((RunResult.prepend evs reqs rus r).out).events = evs ++ r.out.events := by
  cases r <;> rfl

theorem parseDataLine_some {parse : List Char → Option StreamEvent}
    {l : List Char} {e : StreamEvent} (h : parseDataLine parse l = some e) :
    parse (l.drop 6) = some e := by
  unfold parseDataLine at h
  split at h
  · exact h
  · exact absurd h (by simp)

theorem parsed_all {parse : List Char → Option StreamEvent} (P : StreamEvent → Prop)
    (hparse : ∀ l e, parse l = some e → P e) (ls : List (List Char)) :
    ∀ e ∈ ls.filterMap (parseDataLine parse), P e := by
  intro e he
  rcases List.mem_filterMap.mp he with ⟨l, -, hl⟩
  exact hparse _ _ (parseDataLine_some hl)

theorem processEvent_events (hasRU : Bool) (st : LoopSt) (e : StreamEvent) :
    (processEvent hasRU st e).2.1 = [] ∨ (processEvent hasRU st e).2.1 = [e] := by
  unfold processEvent
  cases e <;> simp
  split
  · exact Or.inl rfl
  · exact Or.inr rfl

theorem processEvent_executionId (hasRU : Bool) (st : LoopSt) (e : StreamEvent)
    (h : isTruthyStart e = false) :
    (processEvent hasRU st e).1.executionId = st.executionId := by
  unfold processEvent
  cases e with
  | start eid =>
    have : truthy eid = false := by simpa [isTruthyStart] using h
    simp [this]
  | finish r eid =>
    dsimp only
    split
    · rfl
    · rfl
  | _ => rfl

theorem processEvents_executionId (hasRU : Bool) (st : LoopSt) (es : List StreamEvent)
    (h : ∀ e ∈ es, isTruthyStart e = false) :
    (processEvents hasRU st es).1.executionId = st.executionId := by
  induction es generalizing st with
  | nil => rfl
  | cons e es ih =>
    simp only [processEvents]
    rw [ih _ fun x hx => h x (List.mem_cons_of_mem _ hx)]
    exact processEvent_executionId hasRU st e (h e (List.mem_cons_self e es))

theorem processEvents_no_ctr (hasRU : Bool) (st : LoopSt) (es : List StreamEvent)
    (h : ∀ e ∈ es, isClientToolRequestEvent e = false) :
    ∀ x ∈ (processEvents hasRU st es).2.1, isClientToolRequestEvent x = false := by
  induction es generalizing st with
  | nil => simp [processEvents]
  | cons e es ih =>
    intro x hx
    simp only [processEvents, List.mem_append] at hx
    rcases hx with hx | hx
    · rcases processEvent_events hasRU st e with hpe | hpe
      · rw [hpe] at hx; simp at hx
      · rw [hpe] at hx
        rcases List.mem_singleton.mp hx with rfl
        exact h x (List.mem_cons_self x es)
    · exact ih _ (fun y hy => h y (List.mem_cons_of_mem _ hy)) x hx

theorem readLoop_no_ctr (parse : List Char → Option StreamEvent) (hasRU : Bool)
    (signal : Nat → Bool)
    (hparse : ∀ l e, parse l = some e → isClientToolRequestEvent e = false) :
    ∀ (chunks : List (List Char)) (ending : ReadEnd) (n : Nat) (buffer : List Char)
      (st : LoopSt),
      ∀ x ∈ (readLoop parse hasRU signal chunks ending n buffer st).out.events,
        isClientToolRequestEvent x = false := by
  intro chunks
  induction chunks with
  | nil =>
    intro ending n buffer st x hx
    rw [readLoop.eq_def] at hx
    dsimp only [] at hx
    by_cases hs : signal n = true
    · rw [if_pos hs] at hx
      simp [InnerResult.out] at hx
      rcases hx with rfl; rfl
    · rw [if_neg hs] at hx
      cases ending <;> simp [InnerResult.out] at hx
      · rcases hx with rfl; rfl
  | cons c rest ih =>
    intro ending n buffer st x hx
    rw [readLoop.eq_def] at hx
    dsimp only [] at hx
    by_cases hs : signal n = true
    · rw [if_pos hs] at hx
      simp [InnerResult.out] at hx
      rcases hx with rfl; rfl
    · rw [if_neg hs] at hx
      rw [innerPrepend_out_events] at hx
      rcases List.mem_append.mp hx with hx | hx
      · rw [processLines_eq_events] at hx
        exact processEvents_no_ctr hasRU _ _
          (parsed_all _ hparse _) x hx
      · exact ih ending (n + 1) _ _ x hx

theorem readLoop_executionId (parse : List Char → Option StreamEvent) (hasRU : Bool)
    (signal : Nat → Bool)
    (hparse : ∀ l e, parse l = some e → isTruthyStart e = false) :
    ∀ (chunks : List (List Char)) (ending : ReadEnd) (n : Nat) (buffer : List Char)
      (st : LoopSt),
      (readLoop parse hasRU signal chunks ending n buffer st).out.st.executionId =
        st.executionId := by
  intro chunks
  induction chunks with
  | nil =>
    intro ending n buffer st
    rw [readLoop.eq_def]
    dsimp only []
    by_cases hs : signal n = true
    · rw [if_pos hs]
      rfl
    · rw [if_neg hs]
      cases ending <;> rfl
  | cons c rest ih =>
    intro ending n buffer st
    rw [readLoop.eq_def]
    dsimp only []
    by_cases hs : signal n = true
    · rw [if_pos hs]
      rfl
    · rw [if_neg hs]
      rw [innerPrepend_out_st, ih]
      rw [processLines_eq_events]
      exact processEvents_executionId hasRU _ _ (parsed_all _ hparse _)

theorem outputEventOf_not_ctr (tr : ToolResult) :
    isClientToolRequestEvent (outputEventOf tr) = false := by
  unfold outputEventOf
  split <;> rfl

/-- A run whose parse oracle never yields a truthy start or a
client-tool-request event, entered with a falsy execution identifier, never
yields a client-tool-request: the pause branch is guarded by a truthy
identifier and falls through to the internal error. -/
theorem executeStreamLoop_no_ctr (handlers : ToolHandlers) (hasRU : Bool)
    (parse : List Char → Option StreamEvent)
    (hparse : ∀ l e, parse l = some e →
      isTruthyStart e = false ∧ isClientToolRequestEvent e = false) :
    ∀ (envs : List FetchOutcome) (signal : Nat → Bool) (n : Nat)
      (eid0 : Option String) (tr0 : Option (List ToolResult)),
      truthy eid0 = false →
      ∀ x ∈ (executeStreamLoop handlers hasRU parse signal envs n eid0 tr0).out.events,
        isClientToolRequestEvent x = false := by
  intro envs
  induction envs with
  | nil =>
    intro signal n eid0 tr0 heid x hx
    rw [executeStreamLoop] at hx
    by_cases hs : signal n = true
    · rw [if_pos hs] at hx
      simp [RunResult.out] at hx; rcases hx with rfl; rfl
    · rw [if_neg hs] at hx
      simp [RunResult.out] at hx
  | cons env rest ih =>
    intro signal n eid0 tr0 heid x hx
    rw [executeStreamLoop] at hx
    by_cases hs : signal n = true
    · rw [if_pos hs] at hx
      simp [RunResult.out] at hx; rcases hx with rfl; rfl
    · rw [if_neg hs] at hx
      cases env with
      | abortErr => simp [RunResult.out] at hx; rcases hx with rfl; rfl
      | failErr => simp [RunResult.out] at hx
      | notOk s m => simp [RunResult.out] at hx; rcases hx with rfl; rfl
      | okNoBody => simp [RunResult.out] at hx; rcases hx with rfl; rfl
      | okBody chunks ending =>
        dsimp only [] at hx
        have hrdid := readLoop_executionId parse hasRU signal
          (fun l e hl => (hparse l e hl).1) chunks ending (n + 1) []
          ⟨eid0, none, true⟩
        have hrdctr := readLoop_no_ctr parse hasRU signal
          (fun l e hl => (hparse l e hl).2) chunks ending (n + 1) []
          ⟨eid0, none, true⟩
        cases hrd : readLoop parse hasRU signal chunks ending (n + 1) []
            ⟨eid0, none, true⟩ with
        | aborted o =>
          rw [hrd] at hx
          dsimp only [] at hx
          simp only [RunResult.out] at hx
          exact hrdctr x (by rw [hrd]; simpa [InnerResult.out] using hx)
        | thrownE o =>
          rw [hrd] at hx
          dsimp only [] at hx
          simp only [RunResult.out] at hx
          exact hrdctr x (by rw [hrd]; simpa [InnerResult.out] using hx)
        | finished o =>
          rw [hrd] at hx
          rw [hrd] at hrdid hrdctr
          simp only [InnerResult.out] at hrdid hrdctr
          have hoid : truthy o.st.executionId = false := by rw [hrdid]; exact heid
          dsimp only [] at hx
          by_cases hso : signal o.n = true
          · rw [if_pos hso] at hx
            simp only [RunResult.out] at hx
            rcases List.mem_append.mp hx with hx | hx
            · exact hrdctr x hx
            · rcases List.mem_singleton.mp hx with rfl; rfl
          · rw [if_neg hso] at hx
            cases hpend : o.st.pending with
            | none =>
              rw [hpend] at hx
              dsimp only [] at hx
              simp only [RunResult.out] at hx
              exact hrdctr x hx
            | some calls =>
              cases calls with
              | nil =>
                rw [hpend] at hx
                dsimp only [] at hx
                simp only [RunResult.out] at hx
                exact hrdctr x hx
              | cons c cs =>
                rw [hpend] at hx
                dsimp only [] at hx
                by_cases hcl :
                    ((c :: cs).filter fun tc => !(handlers tc.toolName).isSome).isEmpty = true
                · rw [if_pos hcl] at hx
                  by_cases hco : o.st.continueLoop = true
                  · rw [if_pos hco] at hx
                    rw [runPrepend_out_events] at hx
                    rcases List.mem_append.mp hx with hx | hx
                    · rcases List.mem_append.mp hx with hx | hx
                      · exact hrdctr x hx
                      · rcases List.mem_map.mp hx with ⟨tr', -, rfl⟩
                        exact outputEventOf_not_ctr tr'
                    · exact ih signal _ _ _ hoid x hx
                  · rw [if_neg hco] at hx
                    simp only [RunResult.out] at hx
                    rcases List.mem_append.mp hx with hx | hx
                    · exact hrdctr x hx
                    · rcases List.mem_map.mp hx with ⟨tr', -, rfl⟩
                      exact outputEventOf_not_ctr tr'
                · rw [if_neg hcl] at hx
                  rw [hoid] at hx
                  simp only [Bool.false_eq_true, if_false, RunResult.out] at hx
                  rcases List.mem_append.mp hx with hx | hx
                  · rcases List.mem_append.mp hx with hx | hx
                    · exact hrdctr x hx
                    · rcases List.mem_map.mp hx with ⟨tr', -, rfl⟩
                      exact outputEventOf_not_ctr tr'
                  · rcases List.mem_singleton.mp hx with rfl; rfl

/-- Claim C4: when the pending tool calls left after a round trip include one
without a handler and no execution identifier was ever captured from a start
event nor supplied initially, the engine emits the internal-error event and
terminates without ever emitting a client-tool-request (part_001 lines
222-225).  First conjunct: over any run whose stream delivers no truthy start
(and no client-tool-request of its own), entered without an identifier, no
client-tool-request is ever yielded.  Second conjunct: the round trip ends in
the internal-error event after the local tool outputs, with no further
request. -/
theorem executeStream_missing_executionId (handlers : ToolHandlers) (hasRU : Bool)
    (parse : List Char → Option StreamEvent)
    (hparse : ∀ l e, parse l = some e →
      isTruthyStart e = false ∧ isClientToolRequestEvent e = false) :
    (∀ (signal : Nat → Bool) (envs : List FetchOutcome) (n : Nat)
        (eid0 : Option String) (tr0 : Option (List ToolResult)),
      truthy eid0 = false →
      ∀ x ∈ (executeStreamLoop handlers hasRU parse signal envs n eid0 tr0).out.events,
        isClientToolRequestEvent x = false) ∧
    (∀ (signal : Nat → Bool) (chunks : List (List Char)) (calls : List PendingToolCall)
        (tr0 : Option (List ToolResult)),
      (∀ k, signal k = false) →
      (calls.filter fun tc => !(handlers tc.toolName).isSome) ≠ [] →
      parsedEventsOf parse chunks = [.toolRequest calls, .finish "tool-calls" none] →
      executeStream handlers hasRU parse signal [.okBody chunks .done] ⟨none, tr0⟩ =
        .ok ⟨((calls.filter fun tc => (handlers tc.toolName).isSome).map
              (mkServerResult handlers)).map outputEventOf ++
            [.internalError "Missing executionId for client-tool-request"],
          [⟨none, tr0⟩], []⟩) := by
  constructor
  · exact fun signal envs n eid0 tr0 heid =>
      executeStreamLoop_no_ctr handlers hasRU parse hparse envs signal n eid0 tr0 heid
  · intro signal chunks calls tr0 hsig hext hparsed
    unfold executeStream
    rw [executeStreamLoop.eq_def]
    simp only [hsig, Bool.false_eq_true, if_false]
    rw [readLoop_no_signal parse hasRU signal hsig, processLines_eq_events]
    have hpe : List.filterMap (parseDataLine parse) (decodeLines [] chunks) =
        [] ++ [StreamEvent.toolRequest calls] ++ [] ++
          [StreamEvent.finish "tool-calls" none] := by
      have h' : List.filterMap (parseDataLine parse) (decodeLines [] chunks) =
          [StreamEvent.toolRequest calls, .finish "tool-calls" none] := hparsed
      rw [h']; simp
    rw [hpe, processEvents_round_toolRequest hasRU none [] [] calls none
      (by simp) (by simp)]
    simp only [updExec, hsig, Bool.false_eq_true, if_false]
    obtain ⟨c, cs, rfl⟩ : ∃ c cs, calls = c :: cs := by
      cases calls with
      | nil => exact absurd (by rfl) hext
      | cons c cs => exact ⟨c, cs, rfl⟩
    have hclF : ((c :: cs).filter fun tc => !(handlers tc.toolName).isSome).isEmpty = false := by
      cases hcl : (c :: cs).filter fun tc => !(handlers tc.toolName).isSome with
      | nil => exact absurd hcl hext
      | cons a l => rfl
    simp only [hclF, Bool.false_eq_true, if_false]
    have ht : truthy (none : Option String) = false := rfl
    simp only [ht, Bool.false_eq_true, if_false]
    simp [ruPairs]

/-- Claim C4, witness: a concrete invocation with one handled and one external
call and no identifier: the run ends in the internal-error event and yields no
client-tool-request. -/
theorem executeStream_missing_executionId_witness :
    isClientToolRequestEvent
      (StreamEvent.internalError "Missing executionId for client-tool-request") = false ∧
    executeStream sampleHandlers false parseNoStart sigFalse
        [.okBody ["data: TE\ndata: FC\n".toList] .done] ⟨none, none⟩ =
      .ok ⟨(([callA, callB].filter fun tc => (sampleHandlers tc.toolName).isSome).map
            (mkServerResult sampleHandlers)).map outputEventOf ++
          [.internalError "Missing executionId for client-tool-request"],
        [⟨none, none⟩], []⟩ := by
  have h := executeStream_missing_executionId sampleHandlers false parseNoStart
    (by
      intro l e hl
      unfold parseNoStart at hl
      split at hl
      · cases hl; exact ⟨rfl, rfl⟩
      · cases hl; exact ⟨rfl, rfl⟩
      · exact absurd hl (by simp))
  exact ⟨h.1 sigFalse [.okBody ["data: TE\ndata: FC\n".toList] .done] 0 none none rfl
      (StreamEvent.internalError "Missing executionId for client-tool-request") (by decide),
    h.2 sigFalse ["data: TE\ndata: FC\n".toList] [callA, callB] none
      (fun _ => rfl) (by decide) (by decide)⟩

/-- Claim C8, counterexample: a handler rejecting with an `Error` whose message
is the empty string produces a ToolResult with `error: ""`, but the emission
check `if (tr.error)` is a JS truthiness test, so the engine emits
`tool-output-available` (with undefined output) instead of the
`tool-output-error` the claim requires. -/
theorem executeStream_empty_error_message :
    executeStream emptyErrHandlers false sampleParse sigFalse
        [.okBody ["data: TB\ndata: FC\n".toList] .done,
         .okBody ["data: F\n".toList] .done] ⟨none, none⟩ =
      .ok ⟨[.toolOutputAvailable "c3" .undef, .finish "stop" none],
          [⟨none, none⟩,
           ⟨none, some [{ toolCallId := "c3", toolName := "bad", error := some "" }]⟩],
          []⟩ ∧
    ∀ e ∈ [StreamEvent.toolOutputAvailable "c3" .undef, .finish "stop" none],
      isToolOutputErrorEvent e = false := by
  constructor
  · decide
  · decide

/-- Claim C8, amended: a failing local handler is caught and converted to a
ToolResult carrying an error string, never propagated (the run returns
normally and continues); tool-output events are emitted in the enumeration
order of the local set; a call whose error string is non-empty gets a
`tool-output-error` carrying it, while a handler failure with an empty error
string is emitted as `tool-output-available` with undefined output (the
`if (tr.error)` truthiness test). -/
theorem executeStream_tool_failure_conversion (handlers : ToolHandlers) (hasRU : Bool)
    (parse : List Char → Option StreamEvent) (signal : Nat → Bool)
    (c1 c2 : List (List Char)) (calls : List PendingToolCall)
    (eid0 : Option String) (tr0 : Option (List ToolResult))
    (hsig : ∀ k, signal k = false) (hne : calls ≠ [])
    (hloc : ∀ tc ∈ calls, (handlers tc.toolName).isSome = true)
    (hp1 : parsedEventsOf parse c1 = [.toolRequest calls, .finish "tool-calls" none])
    (hp2 : parsedEventsOf parse c2 = [.finish "stop" none]) :
    executeStream handlers hasRU parse signal
        [.okBody c1 .done, .okBody c2 .done] ⟨eid0, tr0⟩ =
      .ok ⟨(calls.map fun tc => outputEventOf (mkServerResult handlers tc)) ++
            [.finish "stop" none],
          [⟨eid0, tr0⟩, ⟨eid0, some (calls.map (mkServerResult handlers))⟩], []⟩ ∧
    (∀ tc ∈ calls, ∀ h, handlers tc.toolName = some h →
      (∀ m, h tc.args = .errMsg m → (mkServerResult handlers tc).error = some m) ∧
      (∀ m, h tc.args = .errMsg m → m ≠ "" →
        outputEventOf (mkServerResult handlers tc) = .toolOutputError tc.toolCallId m) ∧
      (h tc.args = .errOther →
        outputEventOf (mkServerResult handlers tc) =
          .toolOutputError tc.toolCallId "Tool execution failed") ∧
      (h tc.args = .errMsg "" →
        outputEventOf (mkServerResult handlers tc) =
          .toolOutputAvailable tc.toolCallId .undef)) := by
  refine ⟨executeStream_allLocal_run handlers hasRU parse signal c1 c2 calls eid0 tr0
    hsig hne hloc hp1 hp2, ?_⟩
  intro tc _ h hh
  refine ⟨?_, ?_, ?_, ?_⟩
  · intro m hm
    simp [mkServerResult, hh, hm]
  · intro m hm hne'
    have htr : truthy (some m) = true := by simp [truthy, hne']
    simp [mkServerResult, hh, hm, outputEventOf, htr]
  · intro hm
    have htr : truthy (some "Tool execution failed") = true := by simp [truthy]
    simp [mkServerResult, hh, hm, outputEventOf, htr]
  · intro hm
    have htr : truthy (some "") = false := by simp [truthy]
    simp [mkServerResult, hh, hm, outputEventOf, htr]

/-- Claim C8, witness: the empty-error-message handler run through the amended
theorem: the conversion is caught, the invocation continues, and the emitted
event is the available-with-undefined-output one. -/
theorem executeStream_tool_failure_conversion_witness :
    executeStream emptyErrHandlers false sampleParse sigFalse
        [.okBody ["data: TB\ndata: FC\n".toList] .done,
         .okBody ["data: F\n".toList] .done] ⟨none, none⟩ =
      .ok ⟨([callBad].map fun tc => outputEventOf (mkServerResult emptyErrHandlers tc)) ++
            [.finish "stop" none],
          [⟨none, none⟩, ⟨none, some ([callBad].map (mkServerResult emptyErrHandlers))⟩],
          []⟩ ∧
    outputEventOf (mkServerResult emptyErrHandlers callBad) =
      .toolOutputAvailable callBad.toolCallId .undef := by
  have h := executeStream_tool_failure_conversion emptyErrHandlers false sampleParse sigFalse
    ["data: TB\ndata: FC\n".toList] ["data: F\n".toList] [callBad] none none
    (fun _ => rfl) (by decide)
    (by intro tc htc; rcases List.mem_singleton.mp htc with rfl; rfl)
    (by decide) (by decide)
  exact ⟨h.1, (h.2 callBad (List.mem_singleton.mpr rfl) _ rfl).2.2.2 rfl⟩

/-- Claim C6: the frame-decoding loop's output depends only on the
concatenation of the chunk texts: any two chunkings of the same text produce
the same line sequence and hence the same data records. -/
theorem decodeLines_chunk_invariance (c1 c2 : List (List Char))
    (h : c1.flatten = c2.flatten) :
    decodeLines [] c1 = decodeLines [] c2 ∧
    ∀ parse : List Char → Option StreamEvent,
      (decodeLines [] c1).filterMap (parseDataLine parse) =
        (decodeLines [] c2).filterMap (parseDataLine parse) := by
  have h1 := @decodeLines_eq_join [] (by simp) c1
  have h2 := @decodeLines_eq_join [] (by simp) c2
  constructor
  · rw [h1, h2, h]
  · intro parse
    rw [h1, h2, h]

/-- Claim C6, witness: two different chunkings of the text `ab\ncd\n` yield the
same lines and records. -/
theorem decodeLines_chunk_invariance_witness :
    decodeLines [] ["ab\nc".toList, "d\n".toList] =
      decodeLines [] ["a".toList, "b\ncd\n".toList] ∧
    (decodeLines [] ["ab\nc".toList, "d\n".toList]).filterMap (parseDataLine sampleParse) =
      (decodeLines [] ["a".toList, "b\ncd\n".toList]).filterMap (parseDataLine sampleParse) :=
  ⟨(decodeLines_chunk_invariance _ _ (by decide)).1,
   (decodeLines_chunk_invariance _ _ (by decide)).2 sampleParse⟩

/-! ## SSE encode/decode round trip (session.ts lines 64-84 against part_001
lines 134-145) -/

theorem splitNl_line {l : List Char} (hl : '\n' ∉ l) (rest : List Char) :
    splitNl (l ++ '\n' :: rest) = (l :: (splitNl rest).1, (splitNl rest).2) := by
  induction l with
  | nil => simp [splitNl]
  | cons c cs ih =>
    have hc : ¬ c = '\n' := fun hcc => hl (hcc ▸ List.mem_cons_self c cs)
    have hcs : '\n' ∉ cs := fun hm => hl (List.mem_cons_of_mem c hm)
    simp [splitNl, hc, ih hcs]

theorem parseDataLine_record (parse : List Char → Option StreamEvent)
    (payload : List Char) (hd : payload ≠ "[DONE]".toList) :
    parseDataLine parse (dataMark ++ payload) = parse payload := by
  unfold parseDataLine
  rw [if_pos]
  · rw [show (dataMark ++ payload).drop 6 = payload from by
      rw [show 6 = dataMark.length from rfl]
      exact List.drop_left dataMark payload]
  · constructor
    · rw [show 6 = dataMark.length from rfl]
      exact List.take_left dataMark payload
    · intro hcontra
      have h2 : dataMark ++ payload = dataMark ++ "[DONE]".toList := hcontra
      exact hd (List.append_cancel_left h2)

theorem decodeLines_single (t : List Char) : decodeLines [] [t] = (splitNl t).1 := by
  simp [decodeLines]

/-- Claim C7: serializing an event sequence with the SSE encoder and feeding
the bytes back through the frame decoder and event validator restores the
original sequence; the `[DONE]` sentinel is consumed silently.  The JSON layer
is assumed faithful on the encoded events: `parse` inverts `enc`, whose output
contains no newline and is never the sentinel payload. -/
theorem sse_encode_decode_roundTrip (enc : StreamEvent → List Char)
    (parse : List Char → Option StreamEvent) (events : List StreamEvent)
    (hinv : ∀ e ∈ events, parse (enc e) = some e)
    (hnl : ∀ e ∈ events, '\n' ∉ enc e)
    (hdone : ∀ e ∈ events, enc e ≠ "[DONE]".toList) :
    (decodeLines [] [toSSEStream enc events]).filterMap (parseDataLine parse) =
      events := by
  rw [decodeLines_single]
  induction events with
  | nil => rfl
  | cons e es ih =>
    have hrec : toSSEStream enc (e :: es) =
        (dataMark ++ enc e) ++ ('\n' :: '\n' :: toSSEStream enc es) := by
      simp [toSSEStream, sseRecord]
    have hl : '\n' ∉ dataMark ++ enc e := by
      intro hmem
      rcases List.mem_append.mp hmem with hm | hm
      · exact absurd hm (by decide)
      · exact hnl e (List.mem_cons_self e es) hm
    rw [hrec, splitNl_line hl]
    rw [show splitNl ('\n' :: toSSEStream enc es) =
        ([] :: (splitNl (toSSEStream enc es)).1, (splitNl (toSSEStream enc es)).2) from by
      simp [splitNl]]
    rw [List.filterMap_cons, parseDataLine_record parse (enc e)
      (hdone e (List.mem_cons_self e es)), hinv e (List.mem_cons_self e es)]
    rw [List.filterMap_cons]
    rw [show parseDataLine parse [] = none from rfl]
    rw [ih (fun x hx => hinv x (List.mem_cons_of_mem e hx))
      (fun x hx => hnl x (List.mem_cons_of_mem e hx))
      (fun x hx => hdone x (List.mem_cons_of_mem e hx))]

/-- A concrete stand-in for `JSON.stringify` on the two events of the witness
sequence. -/
def sampleEnc : StreamEvent → List Char
  | .start _ => ['S']
  | .finish _ _ => ['F']
  | _ => ['X']

/-- Claim C7, witness: a concrete two-event sequence round-trips through the
encoder and decoder. -/
theorem sse_encode_decode_roundTrip_witness :
    (decodeLines []
        [toSSEStream sampleEnc [.start (some "e1"), .finish "stop" none]]).filterMap
      (parseDataLine sampleParse) = [.start (some "e1"), .finish "stop" none] :=
  sse_encode_decode_roundTrip sampleEnc sampleParse
    [.start (some "e1"), .finish "stop" none]
    (by
      intro e he
      rcases List.mem_cons.mp he with rfl | he2
      · rfl
      · rcases List.mem_singleton.mp he2 with rfl
        rfl)
    (by decide) (by decide)

/-! ## Resource-update callback correspondence -/

theorem ruPairs_append (a b : List StreamEvent) :
    ruPairs (a ++ b) = ruPairs a ++ ruPairs b := by
  simp [ruPairs]

theorem processEvent_ruCalls (st : LoopSt) (e : StreamEvent) :
    (processEvent true st e).2.2 = ruPairs (processEvent true st e).2.1 := by
  unfold processEvent
  cases e with
  | finish r eid =>
    dsimp only
    split
    · rfl
    · simp [ruPairs]
  | resourceUpdate n v => simp [ruPairs]
  | _ => simp [ruPairs]

theorem processEvents_ruCalls (st : LoopSt) (es : List StreamEvent) :
    (processEvents true st es).2.2 = ruPairs (processEvents true st es).2.1 := by
  induction es generalizing st with
  | nil => rfl
  | cons e es ih =>
    simp only [processEvents]
    rw [ruPairs_append, processEvent_ruCalls, ih]

theorem innerPrepend_out_ruCalls (evs : List StreamEvent)
    (rus : List (String × JsonValue)) (r : InnerResult) :
    ((InnerResult.prepend evs rus r).out).ruCalls = rus ++ r.out.ruCalls := by
  cases r <;> rfl

theorem runPrepend_out_ruCalls (evs : List StreamEvent) (reqs : List ReqState)
    (rus : List (String × JsonValue)) (r : RunResult) :
    ((RunResult.prepend evs reqs rus r).out).ruCalls = rus ++ r.out.ruCalls := by
  cases r <;> rfl

theorem readLoop_ruCalls (parse : List Char → Option StreamEvent) (signal : Nat → Bool) :
    ∀ (chunks : List (List Char)) (ending : ReadEnd) (n : Nat) (buffer : List Char)
      (st : LoopSt),
      (readLoop parse true signal chunks ending n buffer st).out.ruCalls =
        ruPairs (readLoop parse true signal chunks ending n buffer st).out.events := by
  intro chunks
  induction chunks with
  | nil =>
    intro ending n buffer st
    rw [readLoop.eq_def]
    dsimp only []
    by_cases hs : signal n = true
    · rw [if_pos hs]; rfl
    · rw [if_neg hs]
      cases ending <;> rfl
  | cons c rest ih =>
    intro ending n buffer st
    rw [readLoop.eq_def]
    dsimp only []
    by_cases hs : signal n = true
    · rw [if_pos hs]; rfl
    · rw [if_neg hs]
      rw [innerPrepend_out_events, innerPrepend_out_ruCalls,
        ruPairs_append, ih]
      rw [processLines_eq_events, processEvents_ruCalls]

theorem ruPairs_outputEventOf_cons (t : ToolResult) (es : List StreamEvent) :
    ruPairs (outputEventOf t :: es) = ruPairs es := by
  unfold outputEventOf
  split <;> simp [ruPairs, List.filterMap_cons]

theorem ruPairs_outputs_nil (trs : List ToolResult) :
    ruPairs (trs.map outputEventOf) = [] := by
  induction trs with
  | nil => rfl
  | cons t ts ih => rw [List.map_cons, ruPairs_outputEventOf_cons, ih]

/-- When a resource-update callback is supplied, the callback invocations of a
whole invocation are exactly the (name, value) pairs of the resource-update
events it forwards, in order. -/
theorem executeStreamLoop_ruCalls (handlers : ToolHandlers)
    (parse : List Char → Option StreamEvent) :
    ∀ (envs : List FetchOutcome) (signal : Nat → Bool) (n : Nat)
      (eid : Option String) (tr : Option (List ToolResult)),
      (executeStreamLoop handlers true parse signal envs n eid tr).out.ruCalls =
        ruPairs (executeStreamLoop handlers true parse signal envs n eid tr).out.events := by
  intro envs
  induction envs with
  | nil =>
    intro signal n eid tr
    rw [executeStreamLoop]
    by_cases hs : signal n = true
    · rw [if_pos hs]; rfl
    · rw [if_neg hs]; rfl
  | cons env rest ih =>
    intro signal n eid tr
    rw [executeStreamLoop]
    by_cases hs : signal n = true
    · rw [if_pos hs]; rfl
    · rw [if_neg hs]
      cases env with
      | abortErr => rfl
      | failErr => rfl
      | notOk s m => simp [RunResult.out, ruPairs]
      | okNoBody => simp [RunResult.out, ruPairs]
      | okBody chunks ending =>
        dsimp only []
        have hrl := readLoop_ruCalls parse signal chunks ending (n + 1) []
          ⟨eid, none, true⟩
        cases hrd : readLoop parse true signal chunks ending (n + 1) []
            ⟨eid, none, true⟩ with
        | aborted o =>
          rw [hrd] at hrl
          simp only [InnerResult.out] at hrl
          simp [RunResult.out, hrl]
        | thrownE o =>
          rw [hrd] at hrl
          simp only [InnerResult.out] at hrl
          simp [RunResult.out, hrl]
        | finished o =>
          rw [hrd] at hrl
          simp only [InnerResult.out] at hrl
          dsimp only []
          by_cases hso : signal o.n = true
          · rw [if_pos hso]
            simp [RunResult.out, hrl, ruPairs_append, ruPairs]
          · rw [if_neg hso]
            cases hpend : o.st.pending with
            | none => simp [RunResult.out, hrl]
            | some calls =>
              cases calls with
              | nil => simp [RunResult.out, hrl]
              | cons c cs =>
                dsimp only []
                by_cases hcl :
                    ((c :: cs).filter fun tc => !(handlers tc.toolName).isSome).isEmpty = true
                · rw [if_pos hcl]
                  by_cases hco : o.st.continueLoop = true
                  · rw [if_pos hco]
                    rw [runPrepend_out_events, runPrepend_out_ruCalls,
                      ruPairs_append, ih, hrl, ruPairs_append]
                    rw [ruPairs_outputs_nil]
                    simp
                  · rw [if_neg hco]
                    simp only [RunResult.out, ruPairs_append, hrl]
                    rw [ruPairs_outputs_nil]
                    simp
                · rw [if_neg hcl]
                  by_cases hid : truthy o.st.executionId = true
                  · rw [if_pos hid]
                    simp only [RunResult.out, ruPairs_append, hrl]
                    rw [ruPairs_outputs_nil]
                    simp [ruPairs]
                  · rw [if_neg hid]
                    simp only [RunResult.out, ruPairs_append, hrl]
                    rw [ruPairs_outputs_nil]
                    simp [ruPairs]

/-- Claim C9: in the state machine, a supplied resource-update callback is
invoked exactly once per forwarded resource-update event with that event's
name and value, in order (the callback trace equals the resource-update pairs
of the emitted events); at the session facade, a name found in the resource
map triggers exactly one update call on that resource with the event's value,
and an unknown name is silently dropped (session.ts lines 242-247). -/
theorem resource_update_dispatch :
    (∀ (handlers : ToolHandlers) (parse : List Char → Option StreamEvent)
        (signal : Nat → Bool) (envs : List FetchOutcome) (n : Nat)
        (eid : Option String) (tr : Option (List ToolResult)),
      (executeStreamLoop handlers true parse signal envs n eid tr).out.ruCalls =
        ruPairs (executeStreamLoop handlers true parse signal envs n eid tr).out.events) ∧
    (∀ (m : List (String × Resource)) (name : String) (value : JsonValue) (r : Resource),
      mapGet m name = some r → handleResourceUpdate m name value = [(r, value)]) ∧
    (∀ (m : List (String × Resource)) (name : String) (value : JsonValue),
      mapGet m name = none → handleResourceUpdate m name value = []) := by
  refine ⟨?_, ?_, ?_⟩
  · exact fun handlers parse signal envs n eid tr =>
      executeStreamLoop_ruCalls handlers parse envs signal n eid tr
  · intro m name value r h
    unfold handleResourceUpdate
    rw [h]
  · intro m name value h
    unfold handleResourceUpdate
    rw [h]

/-- Claim C9, witness: a concrete run with one resource-update event has the
matching callback trace, and the facade map built from one resource named X
dispatches an X update to it and drops a Y update. -/
theorem resource_update_dispatch_witness :
    (executeStreamLoop noHandlers true sampleParse sigFalse
        [.okBody ["data: R\ndata: F\n".toList] .done] 0 none none).out.ruCalls =
      ruPairs (executeStreamLoop noHandlers true sampleParse sigFalse
        [.okBody ["data: R\ndata: F\n".toList] .done] 0 none none).out.events ∧
    handleResourceUpdate (buildResourceMap [⟨"X", 7⟩]) "X" (.jstr "v") =
      [(⟨"X", 7⟩, .jstr "v")] ∧
    handleResourceUpdate (buildResourceMap [⟨"X", 7⟩]) "Y" (.jstr "v") = [] :=
  ⟨resource_update_dispatch.1 noHandlers sampleParse sigFalse
      [.okBody ["data: R\ndata: F\n".toList] .done] 0 none none,
   resource_update_dispatch.2.1 (buildResourceMap [⟨"X", 7⟩]) "X" (.jstr "v") ⟨"X", 7⟩
     (by decide),
   resource_update_dispatch.2.2 (buildResourceMap [⟨"X", 7⟩]) "Y" (.jstr "v") (by decide)⟩

/-! ## Worker loop versus shared continuation loop -/

def WRunResult.out : WRunResult → WRunOut
  | .ok o => o
  | .thrown o => o
  | .noFuel o => o

/-- No tool call delivered by this event carries a workerId. -/
def eventWidFree : StreamEvent → Bool
  | .toolRequest calls => calls.all fun tc => tc.workerId.isNone
  | _ => true

/-- View of a shared-loop run through the worker facade's inline body rule:
same events, requests mapped through the rule. -/
def runToWorker (input? : Option JsonValue) : RunResult → WRunResult
  | .ok o => .ok ⟨o.events, o.requests.map (workerBodyOf input?)⟩
  | .thrown o => .thrown ⟨o.events, o.requests.map (workerBodyOf input?)⟩
  | .noFuel o => .noFuel ⟨o.events, o.requests.map (workerBodyOf input?)⟩

theorem runToWorker_prepend (input? : Option JsonValue) (evs : List StreamEvent)
    (reqs : List ReqState) (rus : List (String × JsonValue)) (r : RunResult) :
    runToWorker input? (RunResult.prepend evs reqs rus r) =
      WRunResult.prepend evs (reqs.map (workerBodyOf input?)) (runToWorker input? r) := by
  cases r <;> simp [runToWorker, RunResult.prepend, WRunResult.prepend]

theorem mkWorkerResult_eq_mkServerResult (handlers : ToolHandlers)
    (tc : PendingToolCall) (h : tc.workerId = none) :
    mkWorkerResult handlers tc = mkServerResult handlers tc := by
  cases hh : handlers tc.toolName with
  | none => simp [mkWorkerResult, mkServerResult, hh, h]
  | some hd =>
    cases ho : hd tc.args <;> simp [mkWorkerResult, mkServerResult, hh, ho, h]

def pendingWidFree (st : LoopSt) : Prop :=
  ∀ calls, st.pending = some calls → ∀ tc ∈ calls, tc.workerId = none

theorem processEvent_pendingWidFree (hasRU : Bool) (st : LoopSt) (e : StreamEvent)
    (he : eventWidFree e = true) (hst : pendingWidFree st) :
    pendingWidFree (processEvent hasRU st e).1 := by
  unfold processEvent
  cases e with
  | start eid =>
    by_cases ht : truthy eid = true <;> simp [ht] <;> intro cl hcl <;> exact hst cl hcl
  | finish r eid =>
    dsimp only
    split
    · exact hst
    · intro cl hcl; exact hst cl hcl
  | toolRequest calls =>
    intro cl hcl tc htc
    have hcalls : calls = cl := by simpa using hcl
    subst hcalls
    have h2 : ∀ x ∈ calls, x.workerId = none := by
      simpa [eventWidFree, List.all_eq_true, Option.isNone_iff_eq_none] using he
    exact h2 tc htc
  | _ => exact hst

theorem processEvents_pendingWidFree (hasRU : Bool) (st : LoopSt)
    (es : List StreamEvent) (h : ∀ e ∈ es, eventWidFree e = true)
    (hst : pendingWidFree st) : pendingWidFree (processEvents hasRU st es).1 := by
  induction es generalizing st with
  | nil => exact hst
  | cons e es ih =>
    simp only [processEvents]
    exact ih _ (fun x hx => h x (List.mem_cons_of_mem _ hx))
      (processEvent_pendingWidFree hasRU st e (h e (List.mem_cons_self e es)) hst)

theorem readLoop_pendingWidFree (parse : List Char → Option StreamEvent)
    (hasRU : Bool) (signal : Nat → Bool)
    (hparse : ∀ l e, parse l = some e → eventWidFree e = true) :
    ∀ (chunks : List (List Char)) (ending : ReadEnd) (n : Nat) (buffer : List Char)
      (st : LoopSt), pendingWidFree st →
      pendingWidFree (readLoop parse hasRU signal chunks ending n buffer st).out.st := by
  intro chunks
  induction chunks with
  | nil =>
    intro ending n buffer st hst
    rw [readLoop.eq_def]
    dsimp only []
    by_cases hs : signal n = true
    · rw [if_pos hs]; exact hst
    · rw [if_neg hs]
      cases ending <;> exact hst
  | cons c rest ih =>
    intro ending n buffer st hst
    rw [readLoop.eq_def]
    dsimp only []
    by_cases hs : signal n = true
    · rw [if_pos hs]; exact hst
    · rw [if_neg hs]
      rw [innerPrepend_out_st]
      refine ih ending (n + 1) _ _ ?_
      rw [processLines_eq_events]
      exact processEvents_pendingWidFree hasRU st _ (parsed_all _ hparse _) hst

/-- Claim C10, amended: on every input whose tool-request events carry no
workerId, the worker facade's inline loop (workers.ts) is equivalent to the
shared continuation loop (streaming module): identical event sequences, and
request bodies equal to the worker body rule applied to the states the shared
loop builds its bodies from.  (On a tool call carrying a workerId they
diverge: workers.ts omits the workerId field from the ToolResults it builds.) -/
theorem executeWorkerStream_equiv (handlers : ToolHandlers)
    (parse : List Char → Option StreamEvent)
    (hparse : ∀ l e, parse l = some e → eventWidFree e = true) :
    ∀ (envs : List FetchOutcome) (signal : Nat → Bool) (input? : Option JsonValue)
      (n : Nat) (eid : Option String) (tr : Option (List ToolResult)),
      executeWorkerStreamLoop handlers parse signal input? envs n eid tr =
        runToWorker input? (executeStreamLoop handlers false parse signal envs n eid tr) := by
  intro envs
  induction envs with
  | nil =>
    intro signal input? n eid tr
    rw [executeWorkerStreamLoop, executeStreamLoop]
    by_cases hs : signal n = true
    · rw [if_pos hs, if_pos hs]; rfl
    · rw [if_neg hs, if_neg hs]; rfl
  | cons env rest ih =>
    intro signal input? n eid tr
    rw [executeWorkerStreamLoop, executeStreamLoop]
    by_cases hs : signal n = true
    · rw [if_pos hs, if_pos hs]; rfl
    · rw [if_neg hs, if_neg hs]
      cases env with
      | abortErr => rfl
      | failErr => rfl
      | notOk s m => rfl
      | okNoBody => rfl
      | okBody chunks ending =>
        dsimp only []
        have hwf := readLoop_pendingWidFree parse false signal hparse chunks ending
          (n + 1) [] ⟨eid, none, true⟩ (by intro cl hcl; exact absurd hcl (by simp))
        cases hrd : readLoop parse false signal chunks ending (n + 1) []
            ⟨eid, none, true⟩ with
        | aborted o => rfl
        | thrownE o => rfl
        | finished o =>
          rw [hrd] at hwf
          simp only [InnerResult.out] at hwf
          dsimp only []
          by_cases hso : signal o.n = true
          · rw [if_pos hso, if_pos hso]; rfl
          · rw [if_neg hso, if_neg hso]
            cases hpend : o.st.pending with
            | none => rfl
            | some calls =>
              cases calls with
              | nil => rfl
              | cons c cs =>
                dsimp only []
                have hcallswf : ∀ tc ∈ (c :: cs), tc.workerId = none := hwf _ hpend
                have hresults :
                    ((c :: cs).filter fun tc => (handlers tc.toolName).isSome).map
                        (mkWorkerResult handlers) =
                      ((c :: cs).filter fun tc => (handlers tc.toolName).isSome).map
                        (mkServerResult handlers) := by
                  refine List.map_congr_left ?_
                  intro tc htc
                  exact mkWorkerResult_eq_mkServerResult handlers tc
                    (hcallswf tc (List.mem_of_mem_filter htc))
                rw [hresults]
                by_cases hcl :
                    ((c :: cs).filter fun tc => !(handlers tc.toolName).isSome).isEmpty = true
                · rw [if_pos hcl, if_pos hcl]
                  by_cases hco : o.st.continueLoop = true
                  · rw [if_pos hco, if_pos hco]
                    rw [ih, runToWorker_prepend]
                    rfl
                  · rw [if_neg hco, if_neg hco]; rfl
                · rw [if_neg hcl, if_neg hcl]
                  by_cases hid : truthy o.st.executionId = true
                  · rw [if_pos hid, if_pos hid]; rfl
                  · rw [if_neg hid, if_neg hid]; rfl

/-- Claim C10, counterexample: on a stream whose tool-request carries a
workerId, the two loops diverge: the continuation request bodies differ in the
ToolResults (workers.ts omits the workerId field). -/
theorem executeWorkerStream_workerId_divergence :
    executeWorkerStreamLoop sampleHandlers sampleParse sigFalse none
        [.okBody ["data: TW\ndata: FC\n".toList] .done,
         .okBody ["data: F\n".toList] .done] 0 (some "e9") none ≠
      runToWorker none (executeStreamLoop sampleHandlers false sampleParse sigFalse
        [.okBody ["data: TW\ndata: FC\n".toList] .done,
         .okBody ["data: F\n".toList] .done] 0 (some "e9") none) := by
  decide

/-- Claim C10, witness for the amended equivalence: a concrete workerId-free
run of both loops coincides. -/
theorem executeWorkerStream_equiv_witness :
    executeWorkerStreamLoop sampleHandlers parseNoStart sigFalse none
        [.okBody ["data: TE\ndata: FC\n".toList] .done] 0 (some "e9") none =
      runToWorker none (executeStreamLoop sampleHandlers false parseNoStart sigFalse
        [.okBody ["data: TE\ndata: FC\n".toList] .done] 0 (some "e9") none) :=
  executeWorkerStream_equiv sampleHandlers parseNoStart
    (by
      intro l e hl
      unfold parseNoStart at hl
      split at hl
      · cases hl; rfl
      · cases hl; rfl
      · exact absurd hl (by simp))
    [.okBody ["data: TE\ndata: FC\n".toList] .done] sigFalse none 0 (some "e9") none

end Octavus
